import Mathlib

/-!
# Forward-Euler integration of the Lorenz system

A shallow embedding of `SimulationScriptCpp.cpp` (`lorenzSystem`, `eulerIntegration`), in
two arithmetics.

## Exact arithmetic (namespace `Lorenz`)

* `double` is modelled by `ℚ`: arithmetic is exact, there is no rounding, no NaN and no
  infinity.  A division by zero has no value in this model and is reported as undefined.
  This is the reading of the statements that take arithmetic as exact.

## Binary64 arithmetic (namespace `Lorenz.Binary64`)

* A `double` is a finite rational or a non-finite value (`none`); every operation computes
  the exact result and rounds it to the nearest binary64 value, ties to even (`round64`:
  53-bit significand, subnormals, overflow to infinity).  Each operation is rounded on its
  own (no fused multiply-add, no extended precision).  `tMin`, `tMax` and `h` are finite.

## Both

* `int` is the 32-bit signed integer: a conversion or an addition whose value leaves
  `[INT_MIN, INT_MAX]` is undefined behaviour in C++ and is reported as
  `Failure.undefinedBehaviour`.
* `std::vector<double>` is modelled by a list; `push_back` appends at the end.
* `std::vector::reserve` with a negative `int` argument (converted to a huge unsigned size)
  throws `std::length_error`; it is reported as `Failure.lengthError`.
  Memory exhaustion is not modelled.
-/

namespace Lorenz

/-- Source: `const double s = 10.0;` (Prandtl number). -/
def s : ℚ := 10

/-- Source: `const double r = 28.0;` (Rayleigh number). -/
def r : ℚ := 28

/-- Source: `const double b = 8.0/3.0;` (geometric factor). -/
def b : ℚ := 8 / 3

/-- Source: `struct State { double x, y, z; };` -/
structure State where
  x : ℚ
  y : ℚ
  z : ℚ
deriving DecidableEq, Repr

/-- Source: `struct SimulationResult { std::vector<double> x, y, z, t; };` -/
structure SimulationResult where
  x : List ℚ
  y : List ℚ
  z : List ℚ
  t : List ℚ
deriving DecidableEq, Repr

/-- Source: `void lorenzSystem(const State& current, State& derivatives)`.
The two referenced objects are passed in and handed back as a pair
`(current, derivatives)`, so that the effect on each of them is visible.  The three
assignments are made in the order of the source. -/
def lorenzSystem (current derivatives : State) : State × State :=
  let derivatives := { derivatives with x := -s * (current.x - current.y) }
  let derivatives := { derivatives with y := -current.x * current.z + r * current.x - current.y }
  let derivatives := { derivatives with z := current.x * current.y - b * current.z }
  (current, derivatives)

/-- Ways in which a call of `eulerIntegration` ends without returning a result. -/
inductive Failure where
  | undefinedBehaviour
  | lengthError
deriving DecidableEq, Repr

/-- Smallest value of a 32-bit `int`. -/
def INT_MIN : Int := -2147483648

/-- Largest value of a 32-bit `int`. -/
def INT_MAX : Int := 2147483647

/-- Truncation toward zero, the rounding of a floating-to-integer conversion. -/
def truncate (q : ℚ) : Int :=
  if 0 ≤ q then Int.floor q else Int.ceil q

/-- Source: `static_cast<int>(q)`.  The fractional part is discarded; the conversion is
undefined (`none`) when the truncated value is not representable in `int`. -/
def staticCastInt (q : ℚ) : Option Int :=
  let v := truncate q
  if INT_MIN ≤ v ∧ v ≤ INT_MAX then some v else none

/-- Body of the `for` loop of `eulerIntegration` at index `i`:
```
State current{result.x[i-1], result.y[i-1], result.z[i-1]};
State derivatives;
lorenzSystem(current, derivatives);
result.x.push_back(current.x + h * derivatives.x);
result.y.push_back(current.y + h * derivatives.y);
result.z.push_back(current.z + h * derivatives.z);
result.t.push_back(tMin + i * h);
```
`derivatives` is uninitialised before the call; `⟨0, 0, 0⟩` stands for its
indeterminate content, all of which `lorenzSystem` overwrites.  A vector read is
`List.getD` (the index is always in range, see `LoopInv`). -/
def eulerStep (h tMin : ℚ) (i : Int) (result : SimulationResult) : SimulationResult :=
  let current : State :=
    { x := result.x.getD (i - 1).toNat 0
      y := result.y.getD (i - 1).toNat 0
      z := result.z.getD (i - 1).toNat 0 }
  let derivatives : State := (lorenzSystem current ⟨0, 0, 0⟩).2
  { x := result.x ++ [current.x + h * derivatives.x]
    y := result.y ++ [current.y + h * derivatives.y]
    z := result.z ++ [current.z + h * derivatives.z]
    t := result.t ++ [tMin + (i : ℚ) * h] }

/-- Source: `for (int i = 1; i < n; ++i) { ... }`, entered at index `i`. -/
def eulerLoop (h tMin : ℚ) (n : Int) (i : Int) (result : SimulationResult) :
    SimulationResult :=
  if i < n then eulerLoop h tMin n (i + 1) (eulerStep h tMin i result) else result
termination_by (n - i).toNat
decreasing_by omega

/-- Source: `SimulationResult eulerIntegration(State initialState, double tMin,
double tMax, double h = 0.001)`.

* `int n = static_cast<int>((tMax - tMin) / h) + 1;` — undefined when `h = 0`, when the
  quotient does not fit in `int`, or when the addition overflows;
* `result.x.reserve(n); ...` — throws `std::length_error` when `n < 0`;
* the four `push_back` calls store the seed sample;
* the loop appends samples `1 .. n-1`. -/
def eulerIntegration (initialState : State) (tMin tMax h : ℚ) :
    Except Failure SimulationResult :=
  if h = 0 then .error .undefinedBehaviour
  else
    match staticCastInt ((tMax - tMin) / h) with
    | none => .error .undefinedBehaviour
    | some c =>
      if INT_MAX < c + 1 then .error .undefinedBehaviour
      else
        let n : Int := c + 1
        if n < 0 then .error .lengthError
        else
          let result : SimulationResult :=
            { x := [initialState.x]
              y := [initialState.y]
              z := [initialState.z]
              t := [tMin] }
          .ok (eulerLoop h tMin n 1 result)

/-- One forward-Euler update links samples `j` and `j + 1` of `res`: with `prev` the state
stored at sample `j`, sample `j + 1` is `prev + h * derivative`, the derivative being what
`lorenzSystem` writes for `prev` (whatever the prior content `d` of its output object). -/
def EulerRel (h : ℚ) (res : SimulationResult) (j : Nat) : Prop :=
  ∃ prev : State,
    res.x[j]? = some prev.x ∧ res.y[j]? = some prev.y ∧ res.z[j]? = some prev.z ∧
    ∀ d : State,
      res.x[j + 1]? = some (prev.x + h * (lorenzSystem prev d).2.x) ∧
      res.y[j + 1]? = some (prev.y + h * (lorenzSystem prev d).2.y) ∧
      res.z[j + 1]? = some (prev.z + h * (lorenzSystem prev d).2.z)

/-- Invariant of the loop of `eulerIntegration` when `m` samples have been stored. -/
structure LoopInv (initialState : State) (h tMin : ℚ) (m : Nat)
    (res : SimulationResult) : Prop where
  len_x : res.x.length = m
  len_y : res.y.length = m
  len_z : res.z.length = m
  len_t : res.t.length = m
  pos : 1 ≤ m
  seed_x : res.x[0]? = some initialState.x
  seed_y : res.y[0]? = some initialState.y
  seed_z : res.z[0]? = some initialState.z
  time : ∀ j, j < m → res.t[j]? = some (tMin + (j : ℚ) * h)
  step : ∀ j, j + 1 < m → EulerRel h res j

/-- The inputs on which a call of `eulerIntegration` is defined and does not throw: the
step is not zero and the truncated quotient `c` satisfies `-1 ≤ c < INT_MAX`, so that
`n = c + 1` is a non-negative `int`. -/
def Returns (tMin tMax h : ℚ) : Prop :=
  h ≠ 0 ∧ -1 ≤ truncate ((tMax - tMin) / h) ∧ truncate ((tMax - tMin) / h) < INT_MAX

/-- The Lorenz symmetry `(x, y, z) ↦ (-x, -y, z)` applied to every sample of a result. -/
def mirror (res : SimulationResult) : SimulationResult :=
  { x := res.x.map (fun v => -v)
    y := res.y.map (fun v => -v)
    z := res.z
    t := res.t }

/-! ## The same program in binary64 arithmetic -/

namespace Binary64

/-- A value of type `double`: `some q` is the finite value `q`; `none` is a non-finite
value (an infinity or a NaN).  The two zeros are not distinguished.  The operations the
program applies to such values (`+`, `-`, `*`, unary `-`) return a non-finite value
whenever an operand is non-finite. -/
abbrev Double := Option ℚ

/-- Rounding of a rational to the nearest integer, a tie going to the even one. -/
def roundTiesEven (m : ℚ) : Int :=
  if m - ⌊m⌋ < 1 / 2 then ⌊m⌋
  else if 1 / 2 < m - ⌊m⌋ then ⌊m⌋ + 1
  else if ⌊m⌋ % 2 = 0 then ⌊m⌋
  else ⌊m⌋ + 1

/-- Spacing of the binary64 values around `q`: `2 ^ (e - 52)` for `2 ^ e ≤ |q| < 2 ^ (e + 1)`,
and never less than the subnormal spacing `2 ^ (-1074)`. -/
def quantum (q : ℚ) : ℚ :=
  (2 : ℚ) ^ max (Int.log 2 |q| - 52) (-1074)

/-- Rounding of an exact result to binary64, round-to-nearest with ties to even (the IEEE 754
mode in force unless changed): the nearest multiple of `quantum q`; a result of magnitude
`2 ^ 1024` or more overflows to an infinity. -/
def round64 (q : ℚ) : Double :=
  let v : ℚ := (roundTiesEven (q / quantum q) : ℚ) * quantum q
  if |v| < 2 ^ 1024 then some v else none

/-- Source: `a + b` on `double`. -/
def add (a c : Double) : Double :=
  match a, c with
  | some x, some y => round64 (x + y)
  | _, _ => none

/-- Source: `a - b` on `double`. -/
def sub (a c : Double) : Double :=
  match a, c with
  | some x, some y => round64 (x - y)
  | _, _ => none

/-- Source: `a * b` on `double`. -/
def mul (a c : Double) : Double :=
  match a, c with
  | some x, some y => round64 (x * y)
  | _, _ => none

/-- Source: unary `-a` on `double` (exact). -/
def neg (a : Double) : Double :=
  a.map (fun x => -x)

/-- Source: `a / y` on `double`, for a finite divisor `y`; a division by zero gives an
infinity or a NaN. -/
def divBy (a : Double) (y : ℚ) : Double :=
  match a with
  | some x => if y = 0 then none else round64 (x / y)
  | none => none

/-- Source: the conversion of the `int` loop index to `double` in `i * h` (exact). -/
def ofInt (i : Int) : Double :=
  some (i : ℚ)

/-- Source: `const double s = 10.0;` -/
def s : Double := some 10

/-- Source: `const double r = 28.0;` -/
def r : Double := some 28

/-- Source: `const double b = 8.0/3.0;` -/
def b : Double := divBy (some 8) 3

/-- Source: `struct State { double x, y, z; };` -/
structure State where
  x : Double
  y : Double
  z : Double
deriving DecidableEq, Repr

/-- Source: `struct SimulationResult { std::vector<double> x, y, z, t; };` -/
structure SimulationResult where
  x : List Double
  y : List Double
  z : List Double
  t : List Double
deriving DecidableEq, Repr

/-- Source: `void lorenzSystem(const State& current, State& derivatives)`, every operation
rounded to binary64. -/
def lorenzSystem (current derivatives : State) : State × State :=
  let derivatives := { derivatives with x := mul (neg s) (sub current.x current.y) }
  let derivatives :=
    { derivatives with
      y := sub (add (mul (neg current.x) current.z) (mul r current.x)) current.y }
  let derivatives :=
    { derivatives with z := sub (mul current.x current.y) (mul b current.z) }
  (current, derivatives)

/-- Body of the `for` loop of `eulerIntegration` at index `i`, every operation rounded to
binary64: `h * derivatives.x` is rounded, then the sum with `current.x`; `i * h` is rounded,
then the sum with `tMin`.  The uninitialised `derivatives` is `⟨none, none, none⟩`, all of
which `lorenzSystem` overwrites; a vector read is `List.getD` (the index is always in
range, see `LoopInv`). -/
def eulerStep (h tMin : ℚ) (i : Int) (result : SimulationResult) : SimulationResult :=
  let current : State :=
    { x := result.x.getD (i - 1).toNat none
      y := result.y.getD (i - 1).toNat none
      z := result.z.getD (i - 1).toNat none }
  let derivatives : State := (lorenzSystem current ⟨none, none, none⟩).2
  { x := result.x ++ [add current.x (mul (some h) derivatives.x)]
    y := result.y ++ [add current.y (mul (some h) derivatives.y)]
    z := result.z ++ [add current.z (mul (some h) derivatives.z)]
    t := result.t ++ [add (some tMin) (mul (ofInt i) (some h))] }

/-- Source: `for (int i = 1; i < n; ++i) { ... }`, entered at index `i`. -/
def eulerLoop (h tMin : ℚ) (n : Int) (i : Int) (result : SimulationResult) :
    SimulationResult :=
  if i < n then eulerLoop h tMin n (i + 1) (eulerStep h tMin i result) else result
termination_by (n - i).toNat
decreasing_by omega

/-- Source: the expression `(tMax - tMin) / h` of `eulerIntegration`: the difference is
rounded, then the quotient is rounded. -/
def quotient (tMin tMax h : ℚ) : Double :=
  divBy (sub (some tMax) (some tMin)) h

/-- Source: `eulerIntegration`, in binary64 arithmetic, called with finite `tMin`, `tMax`
and `h`.

* `int n = static_cast<int>((tMax - tMin) / h) + 1;` — the conversion is undefined for a
  non-finite quotient (overflow, or `h = 0`) and for one that does not fit in `int`; the
  addition is undefined when it overflows;
* `result.x.reserve(n); ...` — throws `std::length_error` when `n < 0`;
* the four `push_back` calls store the seed sample;
* the loop appends samples `1 .. n-1`. -/
def eulerIntegration (initialState : State) (tMin tMax h : ℚ) :
    Except Failure SimulationResult :=
  match quotient tMin tMax h with
  | none => .error .undefinedBehaviour
  | some q =>
    match staticCastInt q with
    | none => .error .undefinedBehaviour
    | some c =>
      if INT_MAX < c + 1 then .error .undefinedBehaviour
      else
        let n : Int := c + 1
        if n < 0 then .error .lengthError
        else
          let result : SimulationResult :=
            { x := [initialState.x]
              y := [initialState.y]
              z := [initialState.z]
              t := [some tMin] }
          .ok (eulerLoop h tMin n 1 result)

/-- The binary64 value of the literal `0.1`. -/
def tenth : ℚ := 3602879701896397 / 36028797018963968

/-- The binary64 value of the literal `0.001`. -/
def thousandth : ℚ := 1152921504606847 / 1152921504606846976

/-- One forward-Euler update in binary64 arithmetic links samples `j` and `j + 1` of `res`:
with `prev` the state stored at sample `j`, sample `j + 1` is `prev + h * derivative`
(product rounded, then sum rounded), the derivative being what `lorenzSystem` writes for
`prev`. -/
def EulerRel (h : ℚ) (res : SimulationResult) (j : Nat) : Prop :=
  ∃ prev : State,
    res.x[j]? = some prev.x ∧ res.y[j]? = some prev.y ∧ res.z[j]? = some prev.z ∧
    ∀ d : State,
      res.x[j + 1]? = some (add prev.x (mul (some h) (lorenzSystem prev d).2.x)) ∧
      res.y[j + 1]? = some (add prev.y (mul (some h) (lorenzSystem prev d).2.y)) ∧
      res.z[j + 1]? = some (add prev.z (mul (some h) (lorenzSystem prev d).2.z))

/-- Invariant of the loop of `eulerIntegration`, in binary64 arithmetic, when `m` samples
have been stored. -/
structure LoopInv (initialState : State) (h tMin : ℚ) (m : Nat)
    (res : SimulationResult) : Prop where
  len_x : res.x.length = m
  len_y : res.y.length = m
  len_z : res.z.length = m
  len_t : res.t.length = m
  pos : 1 ≤ m
  seed_x : res.x[0]? = some initialState.x
  seed_y : res.y[0]? = some initialState.y
  seed_z : res.z[0]? = some initialState.z
  seed_t : res.t[0]? = some (some tMin)
  time : ∀ j, 1 ≤ j → j < m →
    res.t[j]? = some (add (some tMin) (mul (ofInt (j : Int)) (some h)))
  step : ∀ j, j + 1 < m → EulerRel h res j

end Binary64

/-! ## Elementary facts -/

theorem eulerLoop_lt (h tMin : ℚ) (n i : Int) (res : SimulationResult) (hi : i < n) :
    eulerLoop h tMin n i res = eulerLoop h tMin n (i + 1) (eulerStep h tMin i res) := by
  rw [eulerLoop, if_pos hi]

theorem eulerLoop_ge (h tMin : ℚ) (n i : Int) (res : SimulationResult) (hi : ¬ i < n) :
    eulerLoop h tMin n i res = res := by
  rw [eulerLoop, if_neg hi]

theorem truncate_of_nonneg {q : ℚ} (hq : 0 ≤ q) : truncate q = ⌊q⌋ := by
  simp [truncate, hq]

/-! ## The loop invariant -/

theorem loopInv_seed (initialState : State) (h tMin : ℚ) :
    LoopInv initialState h tMin 1
      { x := [initialState.x], y := [initialState.y], z := [initialState.z], t := [tMin] } where
  len_x := rfl
  len_y := rfl
  len_z := rfl
  len_t := rfl
  pos := le_refl 1
  seed_x := rfl
  seed_y := rfl
  seed_z := rfl
  time := by
    intro j hj
    have : j = 0 := by omega
    subst this
    simp
  step := by
    intro j hj
    omega

theorem getElem?_snoc_lt {α : Type} {l : List α} {v : α} {j : Nat} (hj : j < l.length) :
    (l ++ [v])[j]? = l[j]? :=
  List.getElem?_append_left hj

theorem getElem?_snoc_eq {α : Type} {l : List α} {v : α} {m : Nat} (hm : l.length = m) :
    (l ++ [v])[m]? = some v := by
  subst hm
  exact List.getElem?_concat_length l v

theorem getD_eq_of_lt {l : List ℚ} {j : Nat} (hj : j < l.length) :
    l[j]? = some (l.getD j 0) := by
  rw [List.getD_eq_getElem l 0 hj]
  exact List.getElem?_eq_getElem hj

theorem loopInv_eulerStep {initialState : State} {h tMin : ℚ} {m : Nat}
    {res : SimulationResult} (inv : LoopInv initialState h tMin m res) :
    LoopInv initialState h tMin (m + 1) (eulerStep h tMin (m : Int) res) := by
  have hm := inv.pos
  have hidx : ((m : Int) - 1).toNat = m - 1 := by omega
  have hx : m - 1 < res.x.length := by rw [inv.len_x]; omega
  have hy : m - 1 < res.y.length := by rw [inv.len_y]; omega
  have hz : m - 1 < res.z.length := by rw [inv.len_z]; omega
  refine
    { len_x := by simp [Lorenz.eulerStep, inv.len_x]
      len_y := by simp [Lorenz.eulerStep, inv.len_y]
      len_z := by simp [Lorenz.eulerStep, inv.len_z]
      len_t := by simp [Lorenz.eulerStep, inv.len_t]
      pos := by omega
      seed_x := ?_
      seed_y := ?_
      seed_z := ?_
      time := ?_
      step := ?_ }
  · show (res.x ++ [_])[0]? = _
    rw [getElem?_snoc_lt (by rw [inv.len_x]; omega)]
    exact inv.seed_x
  · show (res.y ++ [_])[0]? = _
    rw [getElem?_snoc_lt (by rw [inv.len_y]; omega)]
    exact inv.seed_y
  · show (res.z ++ [_])[0]? = _
    rw [getElem?_snoc_lt (by rw [inv.len_z]; omega)]
    exact inv.seed_z
  · intro j hj
    show (res.t ++ [_])[j]? = _
    rcases Nat.lt_succ_iff_lt_or_eq.mp hj with hlt | heq
    · rw [getElem?_snoc_lt (by rw [inv.len_t]; exact hlt)]
      exact inv.time j hlt
    · subst heq
      rw [getElem?_snoc_eq inv.len_t]
      simp
  · intro j hj
    rcases Nat.lt_succ_iff_lt_or_eq.mp hj with hlt | heq
    · obtain ⟨prev, px, py, pz, hd⟩ := inv.step j hlt
      refine ⟨prev, ?_, ?_, ?_, ?_⟩
      · show (res.x ++ [_])[j]? = _
        rw [getElem?_snoc_lt (by rw [inv.len_x]; omega)]
        exact px
      · show (res.y ++ [_])[j]? = _
        rw [getElem?_snoc_lt (by rw [inv.len_y]; omega)]
        exact py
      · show (res.z ++ [_])[j]? = _
        rw [getElem?_snoc_lt (by rw [inv.len_z]; omega)]
        exact pz
      · intro d
        obtain ⟨qx, qy, qz⟩ := hd d
        refine ⟨?_, ?_, ?_⟩
        · show (res.x ++ [_])[j + 1]? = _
          rw [getElem?_snoc_lt (by rw [inv.len_x]; omega)]
          exact qx
        · show (res.y ++ [_])[j + 1]? = _
          rw [getElem?_snoc_lt (by rw [inv.len_y]; omega)]
          exact qy
        · show (res.z ++ [_])[j + 1]? = _
          rw [getElem?_snoc_lt (by rw [inv.len_z]; omega)]
          exact qz
    · have hj' : j = m - 1 := by omega
      subst hj'
      have hm' : m - 1 + 1 = m := by omega
      refine ⟨⟨res.x.getD (m - 1) 0, res.y.getD (m - 1) 0, res.z.getD (m - 1) 0⟩,
        ?_, ?_, ?_, ?_⟩
      · show (res.x ++ [_])[m - 1]? = _
        rw [getElem?_snoc_lt hx]
        exact getD_eq_of_lt hx
      · show (res.y ++ [_])[m - 1]? = _
        rw [getElem?_snoc_lt hy]
        exact getD_eq_of_lt hy
      · show (res.z ++ [_])[m - 1]? = _
        rw [getElem?_snoc_lt hz]
        exact getD_eq_of_lt hz
      · intro d
        rw [hm']
        refine ⟨?_, ?_, ?_⟩
        · show (res.x ++ [_])[m]? = _
          rw [getElem?_snoc_eq inv.len_x, hidx]
          rfl
        · show (res.y ++ [_])[m]? = _
          rw [getElem?_snoc_eq inv.len_y, hidx]
          rfl
        · show (res.z ++ [_])[m]? = _
          rw [getElem?_snoc_eq inv.len_z, hidx]
          rfl

theorem loopInv_eulerLoop {initialState : State} {h tMin : ℚ} (n : Int) :
    ∀ (k m : Nat) (res : SimulationResult), (n - (m : Int)).toNat = k →
      LoopInv initialState h tMin m res →
      LoopInv initialState h tMin (max (m : Int) n).toNat
        (eulerLoop h tMin n (m : Int) res) := by
  intro k
  induction k with
  | zero =>
    intro m res hk inv
    have hge : ¬ (m : Int) < n := by omega
    rw [eulerLoop_ge h tMin n m res hge]
    have : (max (m : Int) n).toNat = m := by
      rw [max_eq_left (by omega)]
      simp
    rw [this]
    exact inv
  | succ k ih =>
    intro m res hk inv
    have hlt : (m : Int) < n := by omega
    rw [eulerLoop_lt h tMin n m res hlt]
    have hcast : (m : Int) + 1 = ((m + 1 : Nat) : Int) := by push_cast; rfl
    have hmax : (max (m : Int) n).toNat = (max ((m + 1 : Nat) : Int) n).toNat := by
      rw [max_eq_right (by omega), max_eq_right (by omega)]
    rw [hcast, hmax]
    exact ih (m + 1) _ (by omega) (loopInv_eulerStep inv)

/-! ## When `eulerIntegration` returns, and what -/

theorem eulerIntegration_of_returns (initialState : State) {tMin tMax h : ℚ}
    (hr : Returns tMin tMax h) :
    eulerIntegration initialState tMin tMax h =
      .ok (eulerLoop h tMin (truncate ((tMax - tMin) / h) + 1) 1
        { x := [initialState.x], y := [initialState.y], z := [initialState.z],
          t := [tMin] }) := by
  obtain ⟨h0, hlo, hhi⟩ := hr
  have hcast : staticCastInt ((tMax - tMin) / h) = some (truncate ((tMax - tMin) / h)) := by
    unfold staticCastInt
    simp only
    rw [if_pos]
    refine ⟨?_, ?_⟩
    · unfold INT_MIN; omega
    · omega
  unfold eulerIntegration
  rw [if_neg h0, hcast]
  simp only
  rw [if_neg (by omega), if_neg (by omega)]

theorem returns_of_ok {initialState : State} {tMin tMax h : ℚ} {res : SimulationResult}
    (hok : eulerIntegration initialState tMin tMax h = .ok res) : Returns tMin tMax h := by
  unfold eulerIntegration at hok
  by_cases h0 : h = 0
  · rw [if_pos h0] at hok
    cases hok
  · rw [if_neg h0] at hok
    cases hc : staticCastInt ((tMax - tMin) / h) with
    | none =>
      rw [hc] at hok
      cases hok
    | some c =>
      rw [hc] at hok
      simp only at hok
      have hcv : truncate ((tMax - tMin) / h) = c := by
        unfold staticCastInt at hc
        simp only at hc
        split at hc
        · exact Option.some.inj hc
        · cases hc
      by_cases h1 : INT_MAX < c + 1
      · rw [if_pos h1] at hok
        cases hok
      · rw [if_neg h1] at hok
        by_cases h2 : c + 1 < 0
        · rw [if_pos h2] at hok
          cases hok
        · refine ⟨h0, ?_, ?_⟩
          · rw [hcv]; omega
          · rw [hcv]; omega

theorem eulerIntegration_ok_inv {initialState : State} {tMin tMax h : ℚ}
    {res : SimulationResult}
    (hok : eulerIntegration initialState tMin tMax h = .ok res) :
    LoopInv initialState h tMin
      (max 1 (truncate ((tMax - tMin) / h) + 1)).toNat res := by
  have hr := returns_of_ok hok
  rw [eulerIntegration_of_returns initialState hr] at hok
  have hres := Except.ok.inj hok
  rw [← hres]
  exact loopInv_eulerLoop (truncate ((tMax - tMin) / h) + 1) _ 1 _ rfl
    (loopInv_seed initialState h tMin)

theorem quotient_pos {tMin tMax h : ℚ} (hh : 0 < h) (ht : tMin < tMax) :
    0 < (tMax - tMin) / h :=
  div_pos (sub_pos.mpr ht) hh

theorem truncate_valid {tMin tMax h : ℚ} (hh : 0 < h) (ht : tMin < tMax) :
    truncate ((tMax - tMin) / h) = ⌊(tMax - tMin) / h⌋ ∧ 0 ≤ ⌊(tMax - tMin) / h⌋ := by
  have hq := quotient_pos hh ht
  exact ⟨truncate_of_nonneg hq.le, Int.floor_nonneg.mpr hq.le⟩

theorem eulerIntegration_valid_inv {initialState : State} {tMin tMax h : ℚ}
    {res : SimulationResult} (hh : 0 < h) (ht : tMin < tMax)
    (hok : eulerIntegration initialState tMin tMax h = .ok res) :
    LoopInv initialState h tMin (⌊(tMax - tMin) / h⌋.toNat + 1) res := by
  have inv := eulerIntegration_ok_inv hok
  obtain ⟨htr, hnn⟩ := truncate_valid hh ht
  have : (max 1 (truncate ((tMax - tMin) / h) + 1)).toNat = ⌊(tMax - tMin) / h⌋.toNat + 1 := by
    rw [htr, max_eq_right (by omega)]
    omega
  rw [this] at inv
  exact inv

/-! ## Concrete runs -/

theorem run_one_step :
    eulerIntegration ⟨10, 10, 10⟩ 0 (1 / 1000) (1 / 1000) =
      .ok ⟨[10, 10], [10, 1017 / 100], [10, 10 + 22 / 300], [0, 1 / 1000]⟩ := by
  rw [eulerIntegration_of_returns _ (by norm_num [Returns, truncate, INT_MAX])]
  have hn : truncate (((1 : ℚ) / 1000 - 0) / (1 / 1000)) + 1 = 2 := by norm_num [truncate]
  rw [hn, eulerLoop_lt _ _ _ _ _ (by norm_num), eulerLoop_ge _ _ _ _ _ (by norm_num)]
  norm_num [eulerStep, lorenzSystem, s, r, b]

theorem run_origin :
    eulerIntegration ⟨0, 0, 0⟩ 0 3 1 =
      .ok ⟨[0, 0, 0, 0], [0, 0, 0, 0], [0, 0, 0, 0], [0, 1, 2, 3]⟩ := by
  rw [eulerIntegration_of_returns _ (by norm_num [Returns, truncate, INT_MAX])]
  have hn : truncate (((3 : ℚ) - 0) / 1) + 1 = 4 := by norm_num [truncate]
  rw [hn, eulerLoop_lt _ _ _ _ _ (by norm_num), eulerLoop_lt _ _ _ _ _ (by norm_num),
    eulerLoop_lt _ _ _ _ _ (by norm_num), eulerLoop_ge _ _ _ _ _ (by norm_num)]
  have h2 : Int.toNat 2 = 2 := rfl
  norm_num [eulerStep, lorenzSystem, s, r, b, h2]

theorem run_reversed_span (initialState : State) :
    eulerIntegration initialState 2 1 1 =
      .ok ⟨[initialState.x], [initialState.y], [initialState.z], [2]⟩ := by
  have hc : ⌈(-1 : ℚ)⌉ = -1 := by rw [Int.ceil_neg]; simp
  rw [eulerIntegration_of_returns _ (by norm_num [Returns, truncate, INT_MAX, hc])]
  have hn : truncate (((1 : ℚ) - 2) / 1) + 1 = 0 := by norm_num [truncate, hc]
  rw [hn, eulerLoop_ge _ _ _ _ _ (by norm_num)]

theorem run_short_span :
    eulerIntegration ⟨0, 0, 0⟩ 0 (5 / 2) 1 =
      .ok ⟨[0, 0, 0], [0, 0, 0], [0, 0, 0], [0, 1, 2]⟩ := by
  rw [eulerIntegration_of_returns _ (by norm_num [Returns, truncate, INT_MAX])]
  have hn : truncate (((5 : ℚ) / 2 - 0) / 1) + 1 = 3 := by norm_num [truncate]
  rw [hn, eulerLoop_lt _ _ _ _ _ (by norm_num), eulerLoop_lt _ _ _ _ _ (by norm_num),
    eulerLoop_ge _ _ _ _ _ (by norm_num)]
  norm_num [eulerStep, lorenzSystem, s, r, b]

theorem returns_main : Returns 0 30 (1 / 1000) := by
  norm_num [Returns, truncate, INT_MAX]

/-! ## The symmetry `(x, y, z) ↦ (-x, -y, z)` -/

theorem getD_map_neg (l : List ℚ) (k : Nat) :
    (l.map (fun v => -v)).getD k 0 = -(l.getD k 0) := by
  have := List.getD_map l (0 : ℚ) (fun v => -v) (n := k)
  simpa using this

theorem eulerStep_mirror (h tMin : ℚ) (i : Int) (res : SimulationResult) :
    eulerStep h tMin i (mirror res) = mirror (eulerStep h tMin i res) := by
  simp only [eulerStep, mirror, lorenzSystem, getD_map_neg, List.map_append, List.map_cons,
    List.map_nil, SimulationResult.mk.injEq, List.append_cancel_left_eq, List.cons.injEq,
    and_true]
  refine ⟨?_, ?_, ?_⟩ <;> ring

theorem eulerLoop_mirror (h tMin : ℚ) (n : Int) :
    ∀ (k : Nat) (i : Int) (res : SimulationResult), (n - i).toNat = k →
      eulerLoop h tMin n i (mirror res) = mirror (eulerLoop h tMin n i res) := by
  intro k
  induction k with
  | zero =>
    intro i res hk
    have hge : ¬ i < n := by omega
    rw [eulerLoop_ge _ _ _ _ _ hge, eulerLoop_ge _ _ _ _ _ hge]
  | succ k ih =>
    intro i res hk
    have hlt : i < n := by omega
    rw [eulerLoop_lt _ _ _ _ _ hlt, eulerLoop_lt _ _ _ _ _ hlt, eulerStep_mirror]
    exact ih (i + 1) _ (by omega)

/-! ## The claims -/

/-- C2: for every state, `lorenzSystem` writes the derivative
`dx = -sigma*(x - y)`, `dy = -x*z + rho*x - y`, `dz = x*y - beta*z` with the fixed constants
`sigma = 10`, `rho = 28`, `beta = 8/3`, whatever its output object held before, and hands
back the input state unchanged. -/
theorem lorenzSystem_spec (current derivatives : State) :
    s = 10 ∧ r = 28 ∧ b = 8 / 3 ∧
    (lorenzSystem current derivatives).1 = current ∧
    (lorenzSystem current derivatives).2.x = -10 * (current.x - current.y) ∧
    (lorenzSystem current derivatives).2.y =
      -(current.x * current.z) + 28 * current.x - current.y ∧
    (lorenzSystem current derivatives).2.z = current.x * current.y - 8 / 3 * current.z := by
  refine ⟨rfl, rfl, rfl, rfl, rfl, ?_, rfl⟩
  simp only [lorenzSystem, r]
  ring

/-- C1: for valid inputs (`h > 0`, `tMax > tMin`) and every index `i` with
`1 ≤ i ≤ n - 1` of a returned trajectory of `n` samples, the state at sample `i` is the
state `prev` at sample `i - 1` plus `h` times the derivative `lorenzSystem` computes at
`prev`, component by component. -/
theorem eulerIntegration_forward_euler (initialState : State) (tMin tMax h : ℚ)
    (res : SimulationResult) (hh : 0 < h) (ht : tMin < tMax)
    (hok : eulerIntegration initialState tMin tMax h = .ok res)
    (i : Nat) (hi : 1 ≤ i) (hin : i < res.t.length) :
    ∃ prev : State,
      res.x[i - 1]? = some prev.x ∧ res.y[i - 1]? = some prev.y ∧
      res.z[i - 1]? = some prev.z ∧
      ∀ d : State,
        res.x[i]? = some (prev.x + h * (lorenzSystem prev d).2.x) ∧
        res.y[i]? = some (prev.y + h * (lorenzSystem prev d).2.y) ∧
        res.z[i]? = some (prev.z + h * (lorenzSystem prev d).2.z) := by
  have inv := eulerIntegration_valid_inv hh ht hok
  have hlen := inv.len_t
  have hrel := inv.step (i - 1) (by omega)
  have hi' : i - 1 + 1 = i := by omega
  unfold EulerRel at hrel
  rw [hi'] at hrel
  exact hrel

/-- Witness of C1: the one-step run from `(10, 10, 10)` with `h = 0.001`, at `i = 1`. -/
theorem eulerIntegration_forward_euler_witness :
    (0 : ℚ) < 1 / 1000 ∧ (0 : ℚ) < 1 / 1000 ∧
    eulerIntegration ⟨10, 10, 10⟩ 0 (1 / 1000) (1 / 1000) =
      .ok ⟨[10, 10], [10, 1017 / 100], [10, 10 + 22 / 300], [0, 1 / 1000]⟩ ∧
    ∃ prev : State,
      [(10 : ℚ), 10][1 - 1]? = some prev.x ∧ [(10 : ℚ), 1017 / 100][1 - 1]? = some prev.y ∧
      [(10 : ℚ), 10 + 22 / 300][1 - 1]? = some prev.z ∧
      ∀ d : State,
        [(10 : ℚ), 10][1]? = some (prev.x + 1 / 1000 * (lorenzSystem prev d).2.x) ∧
        [(10 : ℚ), 1017 / 100][1]? = some (prev.y + 1 / 1000 * (lorenzSystem prev d).2.y) ∧
        [(10 : ℚ), 10 + 22 / 300][1]? =
          some (prev.z + 1 / 1000 * (lorenzSystem prev d).2.z) :=
  ⟨by norm_num, by norm_num, run_one_step,
    eulerIntegration_forward_euler ⟨10, 10, 10⟩ 0 (1 / 1000) (1 / 1000)
      ⟨[10, 10], [10, 1017 / 100], [10, 10 + 22 / 300], [0, 1 / 1000]⟩
      (by norm_num) (by norm_num) run_one_step 1 (le_refl 1) (by decide)⟩

/-- C4: whatever `tMin`, `tMax` and `h`, sample 0 of a returned trajectory is
`(tMin, initialState)` itself: `t[0] = tMin`, `x[0] = initialState.x`,
`y[0] = initialState.y`, `z[0] = initialState.z`. -/
theorem eulerIntegration_seed (initialState : State) (tMin tMax h : ℚ)
    (res : SimulationResult)
    (hok : eulerIntegration initialState tMin tMax h = .ok res) :
    res.t[0]? = some tMin ∧ res.x[0]? = some initialState.x ∧
    res.y[0]? = some initialState.y ∧ res.z[0]? = some initialState.z := by
  have inv := eulerIntegration_ok_inv hok
  refine ⟨?_, inv.seed_x, inv.seed_y, inv.seed_z⟩
  have h0 := inv.time 0 (by have := inv.pos; omega)
  simpa using h0

/-- Witness of C4: a run over the reversed span `[2, 1]` returns the seed sample. -/
theorem eulerIntegration_seed_witness :
    eulerIntegration ⟨10, 10, 10⟩ 2 1 1 = .ok ⟨[10], [10], [10], [2]⟩ ∧
    ([(2 : ℚ)][0]? = some 2 ∧ [(10 : ℚ)][0]? = some 10 ∧
      [(10 : ℚ)][0]? = some 10 ∧ [(10 : ℚ)][0]? = some 10) :=
  ⟨run_reversed_span ⟨10, 10, 10⟩,
    eulerIntegration_seed ⟨10, 10, 10⟩ 2 1 1 ⟨[10], [10], [10], [2]⟩
      (run_reversed_span ⟨10, 10, 10⟩)⟩

/-- C7: for valid inputs (`h > 0`, `tMax > tMin`) the first timestamp of a returned
trajectory is `tMin` and the last one, `tLast`, satisfies `tMax - h < tLast ≤ tMax`;
`tLast < tMax` when `(tMax - tMin)/h` is not an integer and `tLast = tMax` when it is. -/
theorem eulerIntegration_time_span (initialState : State) (tMin tMax h : ℚ)
    (res : SimulationResult) (hh : 0 < h) (ht : tMin < tMax)
    (hok : eulerIntegration initialState tMin tMax h = .ok res) :
    res.t.head? = some tMin ∧
    ∃ tLast : ℚ, res.t.getLast? = some tLast ∧ tMax - h < tLast ∧ tLast ≤ tMax ∧
      ((¬ ∃ k : Int, (k : ℚ) = (tMax - tMin) / h) → tLast < tMax) ∧
      ((∃ k : Int, (k : ℚ) = (tMax - tMin) / h) → tLast = tMax) := by
  have inv := eulerIntegration_valid_inv hh ht hok
  obtain ⟨-, hnn⟩ := truncate_valid hh ht
  have hfirst := inv.time 0 (by omega)
  have hlast := inv.time ⌊(tMax - tMin) / h⌋.toNat (by omega)
  have hcast : ((⌊(tMax - tMin) / h⌋.toNat : Nat) : ℚ) = ((⌊(tMax - tMin) / h⌋ : Int) : ℚ) := by
    have := Int.toNat_of_nonneg hnn
    exact_mod_cast this
  rw [hcast] at hlast
  have hle : ((⌊(tMax - tMin) / h⌋ : Int) : ℚ) ≤ (tMax - tMin) / h := Int.floor_le _
  have hlt : (tMax - tMin) / h < ((⌊(tMax - tMin) / h⌋ : Int) : ℚ) + 1 :=
    Int.lt_floor_add_one _
  have hqh : (tMax - tMin) / h * h = tMax - tMin := div_mul_cancel₀ _ hh.ne'
  have hle' : ((⌊(tMax - tMin) / h⌋ : Int) : ℚ) * h ≤ tMax - tMin := by
    have := mul_le_mul_of_nonneg_right hle hh.le
    rwa [hqh] at this
  have hlt' : tMax - tMin < (((⌊(tMax - tMin) / h⌋ : Int) : ℚ) + 1) * h := by
    have := mul_lt_mul_of_pos_right hlt hh
    rwa [hqh] at this
  refine ⟨?_, tMin + ((⌊(tMax - tMin) / h⌋ : Int) : ℚ) * h, ?_, ?_, ?_, ?_, ?_⟩
  · rw [List.head?_eq_getElem?]
    simpa using hfirst
  · rw [List.getLast?_eq_getElem?, inv.len_t]
    simpa using hlast
  · linarith
  · linarith
  · intro hnot
    have hne : ((⌊(tMax - tMin) / h⌋ : Int) : ℚ) ≠ (tMax - tMin) / h :=
      fun heq => hnot ⟨_, heq⟩
    have hlt2 : ((⌊(tMax - tMin) / h⌋ : Int) : ℚ) < (tMax - tMin) / h :=
      lt_of_le_of_ne hle hne
    have : ((⌊(tMax - tMin) / h⌋ : Int) : ℚ) * h < tMax - tMin := by
      have := mul_lt_mul_of_pos_right hlt2 hh
      rwa [hqh] at this
    linarith
  · rintro ⟨k, hk⟩
    have hfl : ⌊(tMax - tMin) / h⌋ = k := by
      rw [← hk]
      exact Int.floor_intCast k
    rw [hfl, hk, hqh]
    ring

/-- Witness of C7: over `[0, 5/2]` with `h = 1` the timestamps are `0, 1, 2`. -/
theorem eulerIntegration_time_span_witness :
    (0 : ℚ) < 1 ∧ (0 : ℚ) < 5 / 2 ∧
    eulerIntegration ⟨0, 0, 0⟩ 0 (5 / 2) 1 =
      .ok ⟨[0, 0, 0], [0, 0, 0], [0, 0, 0], [0, 1, 2]⟩ ∧
    ([(0 : ℚ), 1, 2].head? = some 0 ∧
      ∃ tLast : ℚ, [(0 : ℚ), 1, 2].getLast? = some tLast ∧ 5 / 2 - 1 < tLast ∧
        tLast ≤ 5 / 2 ∧
        ((¬ ∃ k : Int, (k : ℚ) = (5 / 2 - 0) / 1) → tLast < 5 / 2) ∧
        ((∃ k : Int, (k : ℚ) = (5 / 2 - 0) / 1) → tLast = 5 / 2)) :=
  ⟨by norm_num, by norm_num, run_short_span,
    eulerIntegration_time_span ⟨0, 0, 0⟩ 0 (5 / 2) 1
      ⟨[0, 0, 0], [0, 0, 0], [0, 0, 0], [0, 1, 2]⟩
      (by norm_num) (by norm_num) run_short_span⟩

/-- In exact arithmetic the timestamps of a returned trajectory increase strictly, and none
is repeated. -/
theorem exact_time_increasing (initialState : State) (tMin tMax h : ℚ)
    (res : SimulationResult) (hh : 0 < h) (ht : tMin < tMax)
    (hok : eulerIntegration initialState tMin tMax h = .ok res) :
    (∀ i : Nat, i + 1 < res.t.length →
      ∃ a c : ℚ, res.t[i]? = some a ∧ res.t[i + 1]? = some c ∧ a < c) ∧
    res.t.Nodup := by
  have inv := eulerIntegration_valid_inv hh ht hok
  have hlen := inv.len_t
  constructor
  · intro i hi
    refine ⟨_, _, inv.time i (by omega), inv.time (i + 1) (by omega), ?_⟩
    push_cast
    linarith
  · rw [List.nodup_iff_getElem?_ne_getElem?]
    intro i j hij hj
    rw [inv.time i (by omega), inv.time j (by omega)]
    intro heq
    have heq' := Option.some.inj heq
    have hcast : (i : ℚ) < (j : ℚ) := by exact_mod_cast hij
    have : (i : ℚ) * h < (j : ℚ) * h := mul_lt_mul_of_pos_right hcast hh
    linarith

/-- C9 fails as stated: at `(10, 10, 10)` the derivative `lorenzSystem` writes is not
`(0, -72, 100 - 80/3)`, and the `y` value of sample 1 of the run with `h = 0.001` is not
`9.928`. -/
theorem lorenz_single_step_counterexample :
    (lorenzSystem ⟨10, 10, 10⟩ ⟨0, 0, 0⟩).2 ≠ ⟨0, -72, 100 - 80 / 3⟩ ∧
    ¬ ∃ res : SimulationResult,
        eulerIntegration ⟨10, 10, 10⟩ 0 (1 / 1000) (1 / 1000) = .ok res ∧
        res.y[1]? = some (9928 / 1000) := by
  constructor
  · intro heq
    have hy := congrArg State.y heq
    norm_num [lorenzSystem, r] at hy
  · rintro ⟨res, hok, hy⟩
    rw [run_one_step] at hok
    have hres := Except.ok.inj hok
    rw [← hres] at hy
    norm_num at hy

/-- C9, amended: with the program's constants `lorenzSystem` at `(10, 10, 10)` yields
exactly `(0, 170, 100 - 80/3)`, and every trajectory returned by `eulerIntegration`
started at `(10, 10, 10)` with `h = 0.001`, `tMin = 0` and any `tMax ≥ 0.001` has
sample 1 equal to `(10, 10.17, 10 + 0.22/3)`. -/
theorem lorenz_single_step (tMax : ℚ) (res : SimulationResult) (ht : 1 / 1000 ≤ tMax)
    (hok : eulerIntegration ⟨10, 10, 10⟩ 0 tMax (1 / 1000) = .ok res) :
    (∀ d : State, (lorenzSystem ⟨10, 10, 10⟩ d).2 = ⟨0, 170, 100 - 80 / 3⟩) ∧
    res.x[1]? = some 10 ∧ res.y[1]? = some (1017 / 100) ∧
    res.z[1]? = some (10 + 22 / 300) := by
  have hderiv : ∀ d : State, (lorenzSystem ⟨10, 10, 10⟩ d).2 = ⟨0, 170, 100 - 80 / 3⟩ := by
    intro d
    norm_num [lorenzSystem, s, r, b]
  have hh : (0 : ℚ) < 1 / 1000 := by norm_num
  have htpos : (0 : ℚ) < tMax := lt_of_lt_of_le hh ht
  have inv := eulerIntegration_valid_inv hh htpos hok
  have hfl : 1 ≤ ⌊(tMax - 0) / (1 / 1000)⌋ := by
    rw [Int.le_floor]
    rw [le_div_iff₀ hh]
    push_cast
    linarith
  obtain ⟨prev, px, py, pz, hd⟩ := inv.step 0 (by omega)
  have ex : prev.x = 10 := Option.some.inj (px.symm.trans inv.seed_x)
  have ey : prev.y = 10 := Option.some.inj (py.symm.trans inv.seed_y)
  have ez : prev.z = 10 := Option.some.inj (pz.symm.trans inv.seed_z)
  have hprev : prev = ⟨10, 10, 10⟩ := by
    cases prev
    simp only at ex ey ez
    rw [ex, ey, ez]
  obtain ⟨qx, qy, qz⟩ := hd ⟨0, 0, 0⟩
  rw [hprev, hderiv] at qx qy qz
  refine ⟨hderiv, ?_, ?_, ?_⟩
  · rw [qx]; norm_num
  · rw [qy]; norm_num
  · rw [qz]; norm_num

/-- Witness of C9: the call made by `main`, over `[0, 30]` with `h = 0.001`. -/
theorem lorenz_single_step_witness :
    (1 : ℚ) / 1000 ≤ 30 ∧
    ∃ res : SimulationResult,
      eulerIntegration ⟨10, 10, 10⟩ 0 30 (1 / 1000) = .ok res ∧
      (∀ d : State, (lorenzSystem ⟨10, 10, 10⟩ d).2 = ⟨0, 170, 100 - 80 / 3⟩) ∧
      res.x[1]? = some 10 ∧ res.y[1]? = some (1017 / 100) ∧
      res.z[1]? = some (10 + 22 / 300) :=
  ⟨by norm_num, _, eulerIntegration_of_returns ⟨10, 10, 10⟩ returns_main,
    lorenz_single_step 30 _ (by norm_num)
      (eulerIntegration_of_returns ⟨10, 10, 10⟩ returns_main)⟩

/-- C10: `eulerIntegration` commutes with the symmetry `(x, y, z) ↦ (-x, -y, z)`: the call
started at `(-x0, -y0, z0)` ends the way the call started at `(x0, y0, z0)` does, and a
returned trajectory has the same `t` and `z` columns (hence the same length) and the
sample-by-sample negated `x` and `y` columns. -/
theorem eulerIntegration_symmetry (x0 y0 z0 tMin tMax h : ℚ) :
    eulerIntegration ⟨-x0, -y0, z0⟩ tMin tMax h =
      (eulerIntegration ⟨x0, y0, z0⟩ tMin tMax h).map
        (fun res =>
          { x := res.x.map (fun v => -v)
            y := res.y.map (fun v => -v)
            z := res.z
            t := res.t }) := by
  unfold eulerIntegration
  by_cases h0 : h = 0
  · rw [if_pos h0, if_pos h0]
    rfl
  · rw [if_neg h0, if_neg h0]
    cases staticCastInt ((tMax - tMin) / h) with
    | none => rfl
    | some c =>
      simp only
      by_cases h1 : INT_MAX < c + 1
      · rw [if_pos h1, if_pos h1]
        rfl
      · rw [if_neg h1, if_neg h1]
        by_cases h2 : c + 1 < 0
        · rw [if_pos h2, if_pos h2]
          rfl
        · rw [if_neg h2, if_neg h2]
          have hloop := eulerLoop_mirror h tMin (c + 1) (c + 1 - 1).toNat 1
            { x := [x0], y := [y0], z := [z0], t := [tMin] } rfl
          exact congrArg Except.ok hloop

/-! ## Binary64 arithmetic: the loop invariant -/

namespace Binary64

theorem eulerLoop64_lt (h tMin : ℚ) (n i : Int) (res : SimulationResult) (hi : i < n) :
    eulerLoop h tMin n i res = eulerLoop h tMin n (i + 1) (eulerStep h tMin i res) := by
  rw [eulerLoop, if_pos hi]

theorem eulerLoop64_ge (h tMin : ℚ) (n i : Int) (res : SimulationResult) (hi : ¬ i < n) :
    eulerLoop h tMin n i res = res := by
  rw [eulerLoop, if_neg hi]

theorem getD64_eq_of_lt {l : List Double} {j : Nat} (hj : j < l.length) :
    l[j]? = some (l.getD j none) := by
  rw [List.getD_eq_getElem l none hj]
  exact List.getElem?_eq_getElem hj

theorem loopInv64_seed (initialState : State) (h tMin : ℚ) :
    LoopInv initialState h tMin 1
      { x := [initialState.x], y := [initialState.y], z := [initialState.z],
        t := [some tMin] } where
  len_x := rfl
  len_y := rfl
  len_z := rfl
  len_t := rfl
  pos := le_refl 1
  seed_x := rfl
  seed_y := rfl
  seed_z := rfl
  seed_t := rfl
  time := by
    intro j hj1 hj
    omega
  step := by
    intro j hj
    omega

theorem loopInv64_eulerStep {initialState : State} {h tMin : ℚ} {m : Nat}
    {res : SimulationResult} (inv : LoopInv initialState h tMin m res) :
    LoopInv initialState h tMin (m + 1) (eulerStep h tMin (m : Int) res) := by
  have hm := inv.pos
  have hidx : ((m : Int) - 1).toNat = m - 1 := by omega
  have hx : m - 1 < res.x.length := by rw [inv.len_x]; omega
  have hy : m - 1 < res.y.length := by rw [inv.len_y]; omega
  have hz : m - 1 < res.z.length := by rw [inv.len_z]; omega
  refine
    { len_x := by simp [eulerStep, inv.len_x]
      len_y := by simp [eulerStep, inv.len_y]
      len_z := by simp [eulerStep, inv.len_z]
      len_t := by simp [eulerStep, inv.len_t]
      pos := by omega
      seed_x := ?_
      seed_y := ?_
      seed_z := ?_
      seed_t := ?_
      time := ?_
      step := ?_ }
  · show (res.x ++ [_])[0]? = _
    rw [getElem?_snoc_lt (by rw [inv.len_x]; omega)]
    exact inv.seed_x
  · show (res.y ++ [_])[0]? = _
    rw [getElem?_snoc_lt (by rw [inv.len_y]; omega)]
    exact inv.seed_y
  · show (res.z ++ [_])[0]? = _
    rw [getElem?_snoc_lt (by rw [inv.len_z]; omega)]
    exact inv.seed_z
  · show (res.t ++ [_])[0]? = _
    rw [getElem?_snoc_lt (by rw [inv.len_t]; omega)]
    exact inv.seed_t
  · intro j hj1 hj
    show (res.t ++ [_])[j]? = _
    rcases Nat.lt_succ_iff_lt_or_eq.mp hj with hlt | heq
    · rw [getElem?_snoc_lt (by rw [inv.len_t]; exact hlt)]
      exact inv.time j hj1 hlt
    · subst heq
      rw [getElem?_snoc_eq inv.len_t]
  · intro j hj
    rcases Nat.lt_succ_iff_lt_or_eq.mp hj with hlt | heq
    · obtain ⟨prev, px, py, pz, hd⟩ := inv.step j hlt
      refine ⟨prev, ?_, ?_, ?_, ?_⟩
      · show (res.x ++ [_])[j]? = _
        rw [getElem?_snoc_lt (by rw [inv.len_x]; omega)]
        exact px
      · show (res.y ++ [_])[j]? = _
        rw [getElem?_snoc_lt (by rw [inv.len_y]; omega)]
        exact py
      · show (res.z ++ [_])[j]? = _
        rw [getElem?_snoc_lt (by rw [inv.len_z]; omega)]
        exact pz
      · intro d
        obtain ⟨qx, qy, qz⟩ := hd d
        refine ⟨?_, ?_, ?_⟩
        · show (res.x ++ [_])[j + 1]? = _
          rw [getElem?_snoc_lt (by rw [inv.len_x]; omega)]
          exact qx
        · show (res.y ++ [_])[j + 1]? = _
          rw [getElem?_snoc_lt (by rw [inv.len_y]; omega)]
          exact qy
        · show (res.z ++ [_])[j + 1]? = _
          rw [getElem?_snoc_lt (by rw [inv.len_z]; omega)]
          exact qz
    · have hj' : j = m - 1 := by omega
      subst hj'
      have hm' : m - 1 + 1 = m := by omega
      refine ⟨⟨res.x.getD (m - 1) none, res.y.getD (m - 1) none, res.z.getD (m - 1) none⟩,
        ?_, ?_, ?_, ?_⟩
      · show (res.x ++ [_])[m - 1]? = _
        rw [getElem?_snoc_lt hx]
        exact getD64_eq_of_lt hx
      · show (res.y ++ [_])[m - 1]? = _
        rw [getElem?_snoc_lt hy]
        exact getD64_eq_of_lt hy
      · show (res.z ++ [_])[m - 1]? = _
        rw [getElem?_snoc_lt hz]
        exact getD64_eq_of_lt hz
      · intro d
        rw [hm']
        refine ⟨?_, ?_, ?_⟩
        · show (res.x ++ [_])[m]? = _
          rw [getElem?_snoc_eq inv.len_x, hidx]
          rfl
        · show (res.y ++ [_])[m]? = _
          rw [getElem?_snoc_eq inv.len_y, hidx]
          rfl
        · show (res.z ++ [_])[m]? = _
          rw [getElem?_snoc_eq inv.len_z, hidx]
          rfl

theorem loopInv64_eulerLoop {initialState : State} {h tMin : ℚ} (n : Int) :
    ∀ (k m : Nat) (res : SimulationResult), (n - (m : Int)).toNat = k →
      LoopInv initialState h tMin m res →
      LoopInv initialState h tMin (max (m : Int) n).toNat
        (eulerLoop h tMin n (m : Int) res) := by
  intro k
  induction k with
  | zero =>
    intro m res hk inv
    have hge : ¬ (m : Int) < n := by omega
    rw [eulerLoop64_ge h tMin n m res hge]
    have : (max (m : Int) n).toNat = m := by
      rw [max_eq_left (by omega)]
      simp
    rw [this]
    exact inv
  | succ k ih =>
    intro m res hk inv
    have hlt : (m : Int) < n := by omega
    rw [eulerLoop64_lt h tMin n m res hlt]
    have hcast : (m : Int) + 1 = ((m + 1 : Nat) : Int) := by push_cast; rfl
    have hmax : (max (m : Int) n).toNat = (max ((m + 1 : Nat) : Int) n).toNat := by
      rw [max_eq_right (by omega), max_eq_right (by omega)]
    rw [hcast, hmax]
    exact ih (m + 1) _ (by omega) (loopInv64_eulerStep inv)

/-! ## Binary64 arithmetic: when `eulerIntegration` returns, and what -/

theorem staticCastInt_of_range {q : ℚ} (hlo : INT_MIN ≤ truncate q)
    (hhi : truncate q ≤ INT_MAX) : staticCastInt q = some (truncate q) := by
  unfold staticCastInt
  simp only
  rw [if_pos ⟨hlo, hhi⟩]

theorem eulerIntegration64_of_quotient (initialState : State) {tMin tMax h q : ℚ}
    (hq : quotient tMin tMax h = some q) (hlo : -1 ≤ truncate q)
    (hhi : truncate q < INT_MAX) :
    eulerIntegration initialState tMin tMax h =
      .ok (eulerLoop h tMin (truncate q + 1) 1
        { x := [initialState.x], y := [initialState.y], z := [initialState.z],
          t := [some tMin] }) := by
  have hcast : staticCastInt q = some (truncate q) :=
    staticCastInt_of_range (by unfold INT_MIN; omega) (by omega)
  unfold eulerIntegration
  rw [hq]
  simp only
  rw [hcast]
  simp only
  rw [if_neg (by omega), if_neg (by omega)]

theorem eulerIntegration64_throws (initialState : State) {tMin tMax h q : ℚ}
    (hq : quotient tMin tMax h = some q) (hlo : INT_MIN ≤ truncate q)
    (hhi : truncate q < -1) :
    eulerIntegration initialState tMin tMax h = .error .lengthError := by
  have hcast : staticCastInt q = some (truncate q) :=
    staticCastInt_of_range hlo (by unfold INT_MAX; omega)
  unfold eulerIntegration
  rw [hq]
  simp only
  rw [hcast]
  simp only
  rw [if_neg (by unfold INT_MAX; omega), if_pos (by omega)]

theorem eulerIntegration64_overflow (initialState : State) {tMin tMax h q : ℚ}
    (hq : quotient tMin tMax h = some q) (hhi : INT_MAX < truncate q) :
    eulerIntegration initialState tMin tMax h = .error .undefinedBehaviour := by
  have hcast : staticCastInt q = none := by
    unfold staticCastInt
    simp only
    rw [if_neg (by omega)]
  unfold eulerIntegration
  rw [hq]
  simp only
  rw [hcast]

theorem eulerIntegration64_inv (initialState : State) {tMin tMax h q : ℚ}
    (hq : quotient tMin tMax h = some q) (hlo : -1 ≤ truncate q)
    (hhi : truncate q < INT_MAX) :
    ∃ res : SimulationResult,
      eulerIntegration initialState tMin tMax h = .ok res ∧
      LoopInv initialState h tMin (max 1 (truncate q + 1)).toNat res :=
  ⟨_, eulerIntegration64_of_quotient initialState hq hlo hhi,
    loopInv64_eulerLoop (truncate q + 1) _ 1 _ rfl (loopInv64_seed initialState h tMin)⟩

end Binary64

/-! ## Binary64 arithmetic: facts about rounding -/

namespace Binary64

theorem quantum_pos (q : ℚ) : 0 < quantum q := by
  unfold quantum
  positivity

theorem roundTiesEven_intCast (n : Int) : roundTiesEven (n : ℚ) = n := by
  unfold roundTiesEven
  rw [Int.floor_intCast]
  rw [if_pos (by norm_num)]

theorem floor_le_roundTiesEven (m : ℚ) : ⌊m⌋ ≤ roundTiesEven m := by
  unfold roundTiesEven
  split_ifs <;> omega

theorem roundTiesEven_le_floor_add_one (m : ℚ) : roundTiesEven m ≤ ⌊m⌋ + 1 := by
  unfold roundTiesEven
  split_ifs <;> omega

theorem roundTiesEven_nonneg {m : ℚ} (hm : 0 ≤ m) : 0 ≤ roundTiesEven m :=
  le_trans (Int.floor_nonneg.mpr hm) (floor_le_roundTiesEven m)

theorem round64_nonneg {q v : ℚ} (hq : 0 ≤ q) (hv : round64 q = some v) : 0 ≤ v := by
  unfold round64 at hv
  simp only at hv
  split at hv
  · have := Option.some.inj hv
    rw [← this]
    have h1 : 0 ≤ roundTiesEven (q / quantum q) :=
      roundTiesEven_nonneg (div_nonneg hq (quantum_pos q).le)
    have h2 : (0 : ℚ) ≤ (roundTiesEven (q / quantum q) : ℚ) := by exact_mod_cast h1
    exact mul_nonneg h2 (quantum_pos q).le
  · cases hv

theorem quotient_nonneg {tMin tMax h q : ℚ} (hh : 0 < h) (ht : tMin < tMax)
    (hq : quotient tMin tMax h = some q) : 0 ≤ q := by
  unfold quotient sub at hq
  simp only at hq
  cases hd : round64 (tMax - tMin) with
  | none =>
    rw [hd] at hq
    cases hq
  | some d =>
    rw [hd] at hq
    have hd0 : 0 ≤ d := round64_nonneg (sub_nonneg.mpr ht.le) hd
    unfold divBy at hq
    simp only at hq
    rw [if_neg hh.ne'] at hq
    exact round64_nonneg (div_nonneg hd0 hh.le) hq

/-- Evaluation of `Int.log 2` from the two powers of two that enclose the argument. -/
theorem log2_eq {q : ℚ} {e : Int} (hlo : (2 : ℚ) ^ e ≤ q) (hhi : q < (2 : ℚ) ^ (e + 1)) :
    Int.log 2 q = e := by
  have hpos : 0 < q := lt_of_lt_of_le (by positivity) hlo
  have h1 : e ≤ Int.log 2 q := by
    rw [← Int.zpow_le_iff_le_log (by norm_num) hpos]
    exact_mod_cast hlo
  have h2 : Int.log 2 q < e + 1 := by
    rw [← Int.lt_zpow_iff_log_lt (by norm_num) hpos]
    exact_mod_cast hhi
  omega

/-- Rounding of a value in the normal range, from its binade `2 ^ e ≤ |q| < 2 ^ (e + 1)` and
the rounded significand `n`. -/
theorem round64_eval {q : ℚ} (e n : Int) (hlo : (2 : ℚ) ^ e ≤ |q|)
    (hhi : |q| < (2 : ℚ) ^ (e + 1)) (he : -1022 ≤ e)
    (hn : roundTiesEven (q / (2 : ℚ) ^ (e - 52)) = n)
    (hfin : |(n : ℚ) * (2 : ℚ) ^ (e - 52)| < 2 ^ 1024) :
    round64 q = some ((n : ℚ) * (2 : ℚ) ^ (e - 52)) := by
  have hq : quantum q = (2 : ℚ) ^ (e - 52) := by
    unfold quantum
    rw [log2_eq hlo hhi, max_eq_left (by omega)]
  unfold round64
  simp only
  rw [hq, hn, if_pos hfin]

/-- A value `n * 2 ^ e` with `|n| < 2 ^ 53`, `e ≥ -1074` and magnitude below `2 ^ 1024` is a
binary64 value: rounding leaves it unchanged. -/
theorem round64_of_repr (n e : Int) (hn : |n| < 2 ^ 53) (he : -1074 ≤ e)
    (hfin : |(n : ℚ) * (2 : ℚ) ^ e| < 2 ^ 1024) :
    round64 ((n : ℚ) * (2 : ℚ) ^ e) = some ((n : ℚ) * (2 : ℚ) ^ e) := by
  by_cases h0 : n = 0
  · subst h0
    have hr : roundTiesEven (0 : ℚ) = 0 := by simpa using roundTiesEven_intCast 0
    unfold round64
    simp [hr]
  · have hnq : (0 : ℚ) < |(n : ℚ)| := abs_pos.mpr (by exact_mod_cast h0)
    have h2e : (0 : ℚ) < (2 : ℚ) ^ e := zpow_pos (by norm_num) e
    have hpos : 0 < |(n : ℚ) * (2 : ℚ) ^ e| := by
      rw [abs_mul, abs_of_pos h2e]
      exact mul_pos hnq h2e
    have hlt : |(n : ℚ) * (2 : ℚ) ^ e| < (2 : ℚ) ^ (53 + e) := by
      rw [abs_mul, abs_of_pos h2e, zpow_add₀ (by norm_num : (2 : ℚ) ≠ 0)]
      have : |(n : ℚ)| < (2 : ℚ) ^ (53 : Int) := by
        have h53 : |(n : ℚ)| < (2 : ℚ) ^ (53 : Nat) := by exact_mod_cast hn
        exact_mod_cast h53
      exact mul_lt_mul_of_pos_right this h2e
    have hlog : Int.log 2 |(n : ℚ) * (2 : ℚ) ^ e| < 53 + e := by
      rw [← Int.lt_zpow_iff_log_lt (by norm_num) hpos]
      exact_mod_cast hlt
    obtain ⟨k, hk⟩ : ∃ k : Nat,
        max (Int.log 2 |(n : ℚ) * (2 : ℚ) ^ e| - 52) (-1074) + (k : Int) = e :=
      ⟨(e - max (Int.log 2 |(n : ℚ) * (2 : ℚ) ^ e| - 52) (-1074)).toNat, by omega⟩
    have hquo : (n : ℚ) * (2 : ℚ) ^ e / quantum ((n : ℚ) * (2 : ℚ) ^ e) =
        ((n * 2 ^ k : Int) : ℚ) := by
      unfold quantum
      rw [div_eq_iff (by positivity)]
      push_cast
      rw [mul_assoc, ← zpow_natCast, ← zpow_add₀ (by norm_num : (2 : ℚ) ≠ 0)]
      congr 2
      omega
    unfold round64
    simp only
    rw [hquo, roundTiesEven_intCast, ← hquo,
      div_mul_cancel₀ _ (quantum_pos _).ne', if_pos hfin]

theorem round64_intCast (n : Int) (hn : |n| < 2 ^ 53) :
    round64 (n : ℚ) = some (n : ℚ) := by
  have hfin : |(n : ℚ) * (2 : ℚ) ^ (0 : Int)| < 2 ^ 1024 := by
    have h2 : |(n : ℚ)| < (2 : ℚ) ^ 53 := by exact_mod_cast hn
    have h3 : (2 : ℚ) ^ 53 < 2 ^ 1024 := by norm_num
    simpa using lt_trans h2 h3
  have := round64_of_repr n 0 hn (by norm_num) hfin
  simpa using this

end Binary64

/-! ## Binary64 arithmetic: concrete evaluations -/

namespace Binary64

theorem roundTiesEven_down {m : ℚ} (f : Int) (h1 : (f : ℚ) ≤ m) (h2 : m < (f : ℚ) + 1 / 2) :
    roundTiesEven m = f := by
  have hf : ⌊m⌋ = f := by
    rw [Int.floor_eq_iff]
    exact ⟨h1, by linarith⟩
  unfold roundTiesEven
  rw [hf, if_pos (by linarith)]

theorem roundTiesEven_up {m : ℚ} (f : Int) (h1 : (f : ℚ) + 1 / 2 < m) (h2 : m < (f : ℚ) + 1) :
    roundTiesEven m = f + 1 := by
  have hf : ⌊m⌋ = f := by
    rw [Int.floor_eq_iff]
    exact ⟨by linarith, h2⟩
  unfold roundTiesEven
  rw [hf, if_neg (by linarith), if_pos (by linarith)]

theorem roundTiesEven_tie_even {m : ℚ} (f : Int) (h1 : m = (f : ℚ) + 1 / 2)
    (h2 : f % 2 = 0) : roundTiesEven m = f := by
  have hf : ⌊m⌋ = f := by
    rw [Int.floor_eq_iff]
    exact ⟨by linarith, by linarith⟩
  unfold roundTiesEven
  rw [hf, if_neg (by linarith), if_neg (by linarith), if_pos h2]

theorem quotient_eval {tMin tMax h d q : ℚ} (h0 : h ≠ 0)
    (hd : round64 (tMax - tMin) = some d) (hq : round64 (d / h) = some q) :
    quotient tMin tMax h = some q := by
  unfold quotient sub divBy
  simp only
  rw [hd]
  simp only
  rw [if_neg h0, hq]

theorem round64_half_div_tenth : round64 ((1 / 2 : ℚ) / tenth) = some 5 := by
  have key := round64_eval (q := (1 / 2 : ℚ) / tenth) 2 5629499534213120
    (by rw [abs_of_pos (by norm_num [tenth])]; norm_num [tenth])
    (by rw [abs_of_pos (by norm_num [tenth])]; norm_num [tenth])
    (by norm_num)
    (by
      have := roundTiesEven_up (m := (1 / 2 : ℚ) / tenth / (2 : ℚ) ^ ((2 : Int) - 52))
        5629499534213119 (by norm_num [tenth]) (by norm_num [tenth])
      simpa using this)
    (abs_lt.mpr ⟨by norm_num, by norm_num⟩)
  rw [key]
  norm_num

theorem round64_ofInt (n : Int) (hn : |n| < 2 ^ 53) (q v : ℚ) (hq : q = (n : ℚ))
    (hv : v = (n : ℚ)) : round64 q = some v := by
  rw [hq, hv]
  exact round64_intCast n hn

theorem add_int (a c : Int) (q : ℚ) (hq : q = ((a + c : Int) : ℚ)) (hn : |a + c| < 2 ^ 53) :
    add (some (a : ℚ)) (some (c : ℚ)) = some q := by
  show round64 ((a : ℚ) + (c : ℚ)) = some q
  rw [hq, ← Int.cast_add]
  exact round64_intCast _ hn

theorem sub_int (a c : Int) (q : ℚ) (hq : q = ((a - c : Int) : ℚ)) (hn : |a - c| < 2 ^ 53) :
    sub (some (a : ℚ)) (some (c : ℚ)) = some q := by
  show round64 ((a : ℚ) - (c : ℚ)) = some q
  rw [hq, ← Int.cast_sub]
  exact round64_intCast _ hn

theorem mul_int (a c : Int) (q : ℚ) (hq : q = ((a * c : Int) : ℚ)) (hn : |a * c| < 2 ^ 53) :
    mul (some (a : ℚ)) (some (c : ℚ)) = some q := by
  show round64 ((a : ℚ) * (c : ℚ)) = some q
  rw [hq, ← Int.cast_mul]
  exact round64_intCast _ hn

theorem b_eval : b = some (6004799503160661 / 2251799813685248) := by
  unfold b divBy
  simp only
  rw [if_neg (by norm_num)]
  have key := round64_eval (q := (8 : ℚ) / 3) 1 6004799503160661
    (by rw [abs_of_pos (by norm_num)]; norm_num)
    (by rw [abs_of_pos (by norm_num)]; norm_num)
    (by norm_num)
    (by
      have := roundTiesEven_down (m := (8 : ℚ) / 3 / (2 : ℚ) ^ ((1 : Int) - 52))
        6004799503160661 (by norm_num) (by norm_num)
      simpa using this)
    (abs_lt.mpr ⟨by norm_num, by norm_num⟩)
  rw [key]
  norm_num

theorem quotient_overflow : quotient 0 2147483648 1 = some 2147483648 :=
  quotient_eval (d := 2147483648) (by norm_num)
    (round64_ofInt 2147483648 (by norm_num) _ _ (by norm_num) (by norm_num))
    (round64_ofInt 2147483648 (by norm_num) _ _ (by norm_num) (by norm_num))

theorem round64_half : round64 (1 / 2 : ℚ) = some (1 / 2) := by
  have := round64_of_repr 1 (-1) (by norm_num) (by norm_num)
    (abs_lt.mpr ⟨by norm_num, by norm_num⟩)
  simpa using this

theorem round64_neg_half : round64 (-(1 / 2) : ℚ) = some (-(1 / 2)) := by
  have := round64_of_repr (-1) (-1) (by norm_num) (by norm_num)
    (abs_lt.mpr ⟨by norm_num, by norm_num⟩)
  simpa using this

theorem quotient_half_tenth : quotient 0 (1 / 2) tenth = some 5 :=
  quotient_eval (d := 1 / 2) (by norm_num [tenth])
    (by rw [sub_zero]; exact round64_half) round64_half_div_tenth

theorem quotient_half_neg_tenth : quotient (1 / 2) 0 (-tenth) = some 5 :=
  quotient_eval (d := -(1 / 2)) (by norm_num [tenth])
    (by rw [zero_sub]; exact round64_neg_half)
    (by rw [neg_div_neg_eq]; exact round64_half_div_tenth)

theorem quotient_reversed : quotient 0 (-5) 1 = some (-5) :=
  quotient_eval (d := -5) (by norm_num)
    (round64_ofInt (-5) (by norm_num) _ _ (by norm_num) (by norm_num))
    (round64_ofInt (-5) (by norm_num) _ _ (by norm_num) (by norm_num))

theorem round64_thousandth : round64 thousandth = some thousandth := by
  have := round64_of_repr 1152921504606847 (-60) (by norm_num) (by norm_num)
    (abs_lt.mpr ⟨by norm_num, by norm_num⟩)
  have he : (1152921504606847 : ℚ) * (2 : ℚ) ^ (-60 : Int) = thousandth := by
    norm_num [thousandth]
  rw [← he]
  exact_mod_cast this

theorem quotient_thousandth : quotient 0 thousandth thousandth = some 1 :=
  quotient_eval (d := thousandth) (by norm_num [thousandth])
    (by rw [sub_zero]; exact round64_thousandth)
    (by
      rw [div_self (by norm_num [thousandth])]
      exact round64_ofInt 1 (by norm_num) _ _ (by norm_num) (by norm_num))

theorem quotient_negative_step : quotient 1 0 (-1) = some 1 :=
  quotient_eval (d := -1) (by norm_num)
    (round64_ofInt (-1) (by norm_num) _ _ (by norm_num) (by norm_num))
    (round64_ofInt 1 (by norm_num) _ _ (by norm_num) (by norm_num))

theorem quotient_large : quotient 9007199254740992 9007199254740996 1 = some 4 :=
  quotient_eval (d := 4) (by norm_num)
    (round64_ofInt 4 (by norm_num) _ _ (by norm_num) (by norm_num))
    (round64_ofInt 4 (by norm_num) _ _ (by norm_num) (by norm_num))

theorem timestamp_large :
    add (some 9007199254740992) (mul (ofInt ((1 : Nat) : Int)) (some 1)) =
      some 9007199254740992 := by
  have hm : mul (ofInt ((1 : Nat) : Int)) (some 1) = some 1 := by
    have := mul_int 1 1 1 (by norm_num) (by norm_num)
    simpa [ofInt] using this
  rw [hm]
  show round64 ((9007199254740992 : ℚ) + 1) = some 9007199254740992
  have key := round64_eval (q := (9007199254740992 : ℚ) + 1) 53 4503599627370496
    (by rw [abs_of_pos (by norm_num)]; norm_num)
    (by rw [abs_of_pos (by norm_num)]; norm_num)
    (by norm_num)
    (by
      have := roundTiesEven_tie_even
        (m := ((9007199254740992 : ℚ) + 1) / (2 : ℚ) ^ ((53 : Int) - 52))
        4503599627370496 (by norm_num) (by decide)
      simpa using this)
    (abs_lt.mpr ⟨by norm_num, by norm_num⟩)
  rw [key]
  norm_num

theorem quotient_main : quotient 0 30 thousandth = some 30000 := by
  refine quotient_eval (d := 30) (by norm_num [thousandth])
    (round64_ofInt 30 (by norm_num) _ _ (by norm_num) (by norm_num)) ?_
  have key := round64_eval (q := (30 : ℚ) / thousandth) 14 8246337208320000
    (by rw [abs_of_pos (by norm_num [thousandth])]; norm_num [thousandth])
    (by rw [abs_of_pos (by norm_num [thousandth])]; norm_num [thousandth])
    (by norm_num)
    (by
      have := roundTiesEven_up (m := (30 : ℚ) / thousandth / (2 : ℚ) ^ ((14 : Int) - 52))
        8246337208319999 (by norm_num [thousandth]) (by norm_num [thousandth])
      simpa using this)
    (abs_lt.mpr ⟨by norm_num, by norm_num⟩)
  rw [key]
  norm_num

theorem truncate_intCast (n : Int) : truncate (n : ℚ) = n := by
  unfold truncate
  split_ifs
  · exact Int.floor_intCast n
  · exact Int.ceil_intCast n

theorem truncate_one : truncate 1 = 1 := by
  simpa using truncate_intCast 1

theorem run64_negative_step :
    eulerIntegration ⟨some 10, some 10, some 0⟩ 1 0 (-1) =
      .ok ⟨[some 10, some 10], [some 10, some (-260)], [some 0, some (-100)],
        [some 1, some 0]⟩ := by
  rw [eulerIntegration64_of_quotient _ quotient_negative_step
    (by rw [truncate_one]; decide) (by rw [truncate_one]; decide)]
  rw [truncate_one]
  rw [eulerLoop64_lt _ _ _ _ _ (by decide), eulerLoop64_ge _ _ _ _ _ (by decide)]
  have g10 : ([some (10 : ℚ)] : List Double).getD ((1 : Int) - 1).toNat none = some 10 := rfl
  have g0 : ([some (0 : ℚ)] : List Double).getD ((1 : Int) - 1).toNat none = some 0 := rfl
  have f1 : sub (some (10 : ℚ)) (some 10) = some 0 := by
    simpa using sub_int 10 10 0 (by norm_num) (by norm_num)
  have f2 : mul (some (-10 : ℚ)) (some 0) = some 0 := by
    simpa using mul_int (-10) 0 0 (by norm_num) (by norm_num)
  have f3 : mul (some (-1 : ℚ)) (some 0) = some 0 := by
    simpa using mul_int (-1) 0 0 (by norm_num) (by norm_num)
  have f4 : add (some (10 : ℚ)) (some 0) = some 10 := by
    simpa using add_int 10 0 10 (by norm_num) (by norm_num)
  have f5 : mul (some (28 : ℚ)) (some 10) = some 280 := by
    simpa using mul_int 28 10 280 (by norm_num) (by norm_num)
  have f6 : add (some (0 : ℚ)) (some 280) = some 280 := by
    simpa using add_int 0 280 280 (by norm_num) (by norm_num)
  have f7 : sub (some (280 : ℚ)) (some 10) = some 270 := by
    simpa using sub_int 280 10 270 (by norm_num) (by norm_num)
  have f8 : mul (some (-1 : ℚ)) (some 270) = some (-270) := by
    simpa using mul_int (-1) 270 (-270) (by norm_num) (by norm_num)
  have f9 : add (some (10 : ℚ)) (some (-270)) = some (-260) := by
    simpa using add_int 10 (-270) (-260) (by norm_num) (by norm_num)
  have f10 : mul (some (10 : ℚ)) (some 10) = some 100 := by
    simpa using mul_int 10 10 100 (by norm_num) (by norm_num)
  have f11 : mul b (some 0) = some 0 := by
    rw [b_eval]
    show round64 ((6004799503160661 / 2251799813685248 : ℚ) * 0) = some 0
    rw [mul_zero]
    exact round64_ofInt 0 (by norm_num) _ _ (by norm_num) (by norm_num)
  have f12 : sub (some (100 : ℚ)) (some 0) = some 100 := by
    simpa using sub_int 100 0 100 (by norm_num) (by norm_num)
  have f13 : mul (some (-1 : ℚ)) (some 100) = some (-100) := by
    simpa using mul_int (-1) 100 (-100) (by norm_num) (by norm_num)
  have f14 : add (some (0 : ℚ)) (some (-100)) = some (-100) := by
    simpa using add_int 0 (-100) (-100) (by norm_num) (by norm_num)
  have f15 : mul (some ((1 : Int) : ℚ)) (some (-1)) = some (-1) := by
    simpa using mul_int 1 (-1) (-1) (by norm_num) (by norm_num)
  have f16 : add (some (1 : ℚ)) (some (-1)) = some 0 := by
    simpa using add_int 1 (-1) 0 (by norm_num) (by norm_num)
  simp only [eulerStep, lorenzSystem, s, r, neg, ofInt, Option.map, g10, g0, f1, f2, f3, f4,
    f5, f6, f7, f8, f9, f10, f11, f12, f13, f14, f15, f16, List.singleton_append]

end Binary64

/-! ## Binary64 arithmetic: rounding is monotone -/

namespace Binary64

theorem roundTiesEven_mono {m₁ m₂ : ℚ} (h : m₁ ≤ m₂) :
    roundTiesEven m₁ ≤ roundTiesEven m₂ := by
  have hf : ⌊m₁⌋ ≤ ⌊m₂⌋ := Int.floor_mono h
  rcases lt_or_eq_of_le hf with hlt | heq
  · have h1 := roundTiesEven_le_floor_add_one m₁
    have h2 := floor_le_roundTiesEven m₂
    omega
  · unfold roundTiesEven
    rw [heq]
    split_ifs <;> first | omega | (exfalso; linarith)

theorem roundTiesEven_neg (m : ℚ) : roundTiesEven (-m) = -roundTiesEven m := by
  by_cases hint : ((⌊m⌋ : Int) : ℚ) = m
  · have h1 : roundTiesEven m = ⌊m⌋ := by
      rw [← hint, Int.floor_intCast]
      exact roundTiesEven_intCast _
    have h2 : roundTiesEven (-m) = -⌊m⌋ := by
      have : -m = ((-⌊m⌋ : Int) : ℚ) := by
        push_cast
        rw [hint]
      rw [this]
      exact roundTiesEven_intCast _
    rw [h1, h2]
  · have hle : ((⌊m⌋ : Int) : ℚ) ≤ m := Int.floor_le m
    have hlt : ((⌊m⌋ : Int) : ℚ) < m := lt_of_le_of_ne hle hint
    have hub : m < ((⌊m⌋ : Int) : ℚ) + 1 := Int.lt_floor_add_one m
    have hfn : ⌊-m⌋ = -⌊m⌋ - 1 := by
      rw [Int.floor_eq_iff]
      push_cast
      constructor <;> linarith
    unfold roundTiesEven
    rw [hfn]
    push_cast
    split_ifs <;> first | omega | (exfalso; linarith)

theorem quantum_neg (q : ℚ) : quantum (-q) = quantum q := by
  unfold quantum
  rw [abs_neg]

theorem round64_val {q v : ℚ} (h : round64 q = some v) :
    v = (roundTiesEven (q / quantum q) : ℚ) * quantum q := by
  unfold round64 at h
  simp only at h
  split at h
  · exact (Option.some.inj h).symm
  · cases h

theorem nearest_mono_pos {x y : ℚ} (hx : 0 < x) (hxy : x ≤ y) :
    (roundTiesEven (x / quantum x) : ℚ) * quantum x ≤
      (roundTiesEven (y / quantum y) : ℚ) * quantum y := by
  have hy : 0 < y := lt_of_lt_of_le hx hxy
  have hlog : Int.log 2 x ≤ Int.log 2 y := Int.log_mono_right hx hxy
  have hqx : quantum x = (2 : ℚ) ^ max (Int.log 2 x - 52) (-1074) := by
    unfold quantum
    rw [abs_of_pos hx]
  have hqy : quantum y = (2 : ℚ) ^ max (Int.log 2 y - 52) (-1074) := by
    unfold quantum
    rw [abs_of_pos hy]
  have h2 : (2 : ℚ) ≠ 0 := by norm_num
  rcases eq_or_lt_of_le
      (max_le_max (sub_le_sub_right hlog 52) (le_refl (-1074 : Int))) with heq | hlt
  · have hq : quantum x = quantum y := by rw [hqx, hqy, heq]
    rw [hq]
    have hdiv : x / quantum y ≤ y / quantum y :=
      div_le_div_of_nonneg_right hxy (quantum_pos y).le
    have hr := roundTiesEven_mono hdiv
    have hr' : (roundTiesEven (x / quantum y) : ℚ) ≤ (roundTiesEven (y / quantum y) : ℚ) := by
      exact_mod_cast hr
    exact mul_le_mul_of_nonneg_right hr' (quantum_pos y).le
  · have hcy : max (Int.log 2 y - 52) (-1074) = Int.log 2 y - 52 := by
      apply max_eq_left
      by_contra hc
      rw [max_eq_right (by omega)] at hlt
      have := le_max_right (Int.log 2 x - 52) (-1074)
      omega
    have hcx : max (Int.log 2 x - 52) (-1074) < Int.log 2 y - 52 := by
      rw [hcy] at hlt
      exact hlt
    have hex : Int.log 2 x + 1 ≤ Int.log 2 y := by
      have := le_max_left (Int.log 2 x - 52) (-1074)
      omega
    have hxB : x < (2 : ℚ) ^ Int.log 2 y := by
      have h1 : x < (2 : ℚ) ^ (Int.log 2 x + 1) := by
        exact_mod_cast Int.lt_zpow_succ_log_self (by norm_num : 1 < 2) x
      have h3 : (2 : ℚ) ^ (Int.log 2 x + 1) ≤ (2 : ℚ) ^ Int.log 2 y :=
        zpow_le_zpow_right₀ (by norm_num) hex
      exact lt_of_lt_of_le h1 h3
    have hBy : (2 : ℚ) ^ Int.log 2 y ≤ y := by
      exact_mod_cast Int.zpow_log_le_self (by norm_num : 1 < 2) hy
    obtain ⟨k, hk⟩ : ∃ k : Nat,
        max (Int.log 2 x - 52) (-1074) + (k : Int) = Int.log 2 y :=
      ⟨(Int.log 2 y - max (Int.log 2 x - 52) (-1074)).toNat, by omega⟩
    have hBx : (2 : ℚ) ^ Int.log 2 y = ((2 ^ k : Int) : ℚ) * quantum x := by
      rw [hqx]
      push_cast
      rw [← zpow_natCast, ← zpow_add₀ h2]
      congr 1
      omega
    have hB52 : (2 : ℚ) ^ Int.log 2 y = ((2 ^ 52 : Int) : ℚ) * quantum y := by
      have h52 : ((2 ^ 52 : Int) : ℚ) = (2 : ℚ) ^ (52 : Int) := by norm_num
      rw [hqy, hcy, h52, ← zpow_add₀ h2]
      congr 1
      omega
    have hleft : (roundTiesEven (x / quantum x) : ℚ) * quantum x ≤ (2 : ℚ) ^ Int.log 2 y := by
      have hdiv : x / quantum x ≤ ((2 ^ k : Int) : ℚ) := by
        rw [div_le_iff₀ (quantum_pos x), ← hBx]
        exact hxB.le
      have hr := roundTiesEven_mono hdiv
      rw [roundTiesEven_intCast] at hr
      have hr' : (roundTiesEven (x / quantum x) : ℚ) ≤ ((2 ^ k : Int) : ℚ) := by
        exact_mod_cast hr
      rw [hBx]
      exact mul_le_mul_of_nonneg_right hr' (quantum_pos x).le
    have hright : (2 : ℚ) ^ Int.log 2 y ≤ (roundTiesEven (y / quantum y) : ℚ) * quantum y := by
      have hdiv : ((2 ^ 52 : Int) : ℚ) ≤ y / quantum y := by
        rw [le_div_iff₀ (quantum_pos y), ← hB52]
        exact hBy
      have hr := roundTiesEven_mono hdiv
      rw [roundTiesEven_intCast] at hr
      have hr' : ((2 ^ 52 : Int) : ℚ) ≤ (roundTiesEven (y / quantum y) : ℚ) := by
        exact_mod_cast hr
      rw [hB52]
      exact mul_le_mul_of_nonneg_right hr' (quantum_pos y).le
    exact le_trans hleft hright

theorem nearest_nonneg {q : ℚ} (hq : 0 ≤ q) :
    0 ≤ (roundTiesEven (q / quantum q) : ℚ) * quantum q := by
  have h1 : 0 ≤ roundTiesEven (q / quantum q) :=
    roundTiesEven_nonneg (div_nonneg hq (quantum_pos q).le)
  have h2 : (0 : ℚ) ≤ (roundTiesEven (q / quantum q) : ℚ) := by exact_mod_cast h1
  exact mul_nonneg h2 (quantum_pos q).le

theorem nearest_neg (q : ℚ) :
    (roundTiesEven (-q / quantum (-q)) : ℚ) * quantum (-q) =
      -((roundTiesEven (q / quantum q) : ℚ) * quantum q) := by
  rw [quantum_neg, neg_div, roundTiesEven_neg]
  push_cast
  ring

theorem nearest_mono {x y : ℚ} (hxy : x ≤ y) :
    (roundTiesEven (x / quantum x) : ℚ) * quantum x ≤
      (roundTiesEven (y / quantum y) : ℚ) * quantum y := by
  rcases lt_trichotomy 0 x with hx | hx | hx
  · exact nearest_mono_pos hx hxy
  · subst hx
    have h0 : (roundTiesEven ((0 : ℚ) / quantum 0) : ℚ) * quantum 0 = 0 := by
      have hr : roundTiesEven (0 : ℚ) = 0 := by simpa using roundTiesEven_intCast 0
      rw [zero_div, hr]
      simp
    rw [h0]
    exact nearest_nonneg hxy
  · rcases le_or_lt 0 y with hy | hy
    · have hxn : 0 ≤ (roundTiesEven (-x / quantum (-x)) : ℚ) * quantum (-x) :=
        nearest_nonneg (by linarith)
      rw [nearest_neg] at hxn
      have := nearest_nonneg hy
      linarith
    · have key := nearest_mono_pos (x := -y) (y := -x) (by linarith) (by linarith)
      rw [nearest_neg, nearest_neg] at key
      linarith

/-- Rounding to binary64 is monotone on the finite results. -/
theorem round64_mono {x y a c : ℚ} (hxy : x ≤ y) (hx : round64 x = some a)
    (hy : round64 y = some c) : a ≤ c := by
  rw [round64_val hx, round64_val hy]
  exact nearest_mono hxy

end Binary64

/-! ## The claims settled in binary64 arithmetic -/

namespace Binary64

/-- C3 fails as stated, in two ways.  With `tMin = 0`, `tMax = 2147483648`, `h = 1` (a valid
configuration) the quotient is not representable in `int` and no trajectory is returned.
With `tMin = 0`, `tMax = 0.5`, `h = 0.1` the quotient computed in `double` rounds up to `5`
and six samples are returned, whereas `floor((tMax - tMin)/h) + 1` is `5` for the values
held by these doubles. -/
theorem eulerIntegration64_length_counterexample :
    ((0 : ℚ) < 1 ∧ (0 : ℚ) < 2147483648 ∧
      eulerIntegration ⟨some 10, some 10, some 10⟩ 0 2147483648 1 =
        .error .undefinedBehaviour) ∧
    ((0 : ℚ) < tenth ∧ (0 : ℚ) < 1 / 2 ∧
      ⌊((1 / 2 : ℚ) - 0) / tenth⌋ + 1 = 5 ∧
      ∃ res : SimulationResult,
        eulerIntegration ⟨some 10, some 10, some 10⟩ 0 (1 / 2) tenth = .ok res ∧
        res.t.length = 6) := by
  refine ⟨⟨by norm_num, by norm_num, ?_⟩, ⟨by norm_num [tenth], by norm_num, ?_, ?_⟩⟩
  · refine eulerIntegration64_overflow _ quotient_overflow ?_
    have h1 : truncate (2147483648 : ℚ) = 2147483648 := by
      simpa using truncate_intCast 2147483648
    rw [h1]
    decide
  · have hf : ⌊((1 / 2 : ℚ) - 0) / tenth⌋ = 4 := by
      rw [Int.floor_eq_iff]
      constructor <;> norm_num [tenth]
    rw [hf]
    rfl
  · have h5 : truncate (5 : ℚ) = 5 := by simpa using truncate_intCast 5
    obtain ⟨res, hok, inv⟩ := eulerIntegration64_inv ⟨some 10, some 10, some 10⟩
      quotient_half_tenth (by rw [h5]; decide) (by rw [h5]; decide)
    refine ⟨res, hok, ?_⟩
    rw [inv.len_t, h5]
    rfl

/-- C3, amended: for valid inputs (finite `tMin`, `tMax`, `h` with `h > 0` and
`tMax > tMin`) let `Q` be the quotient `(tMax - tMin) / h` as the code computes it in
`double` arithmetic (the difference rounded, then the quotient rounded).  When `Q` is finite
and the step count fits in `int`, that is `floor(Q) ≤ 2147483646`, `eulerIntegration`
returns a trajectory each of whose four columns `t`, `x`, `y`, `z` has exactly
`floor(Q) + 1` entries. -/
theorem eulerIntegration64_length (initialState : State) (tMin tMax h Q : ℚ)
    (hh : 0 < h) (ht : tMin < tMax) (hQ : quotient tMin tMax h = some Q)
    (hfit : ⌊Q⌋ ≤ 2147483646) :
    ∃ res : SimulationResult,
      eulerIntegration initialState tMin tMax h = .ok res ∧
      (res.t.length : Int) = ⌊Q⌋ + 1 ∧
      (res.x.length : Int) = ⌊Q⌋ + 1 ∧
      (res.y.length : Int) = ⌊Q⌋ + 1 ∧
      (res.z.length : Int) = ⌊Q⌋ + 1 := by
  have hQ0 : 0 ≤ Q := quotient_nonneg hh ht hQ
  have htr : truncate Q = ⌊Q⌋ := truncate_of_nonneg hQ0
  have hnn : 0 ≤ ⌊Q⌋ := Int.floor_nonneg.mpr hQ0
  obtain ⟨res, hok, inv⟩ := eulerIntegration64_inv initialState hQ
    (by rw [htr]; omega) (by rw [htr]; unfold INT_MAX; omega)
  rw [htr] at inv
  refine ⟨res, hok, ?_, ?_, ?_, ?_⟩
  · rw [inv.len_t]; omega
  · rw [inv.len_x]; omega
  · rw [inv.len_y]; omega
  · rw [inv.len_z]; omega

/-- Witness of C3: `tMin = 0`, `tMax = 0.001`, `h = 0.001` (the doubles these literals
denote) gives exactly 2 samples; the call made by `main`, over `[0, 30]` with `h = 0.001`,
gives 30001 samples. -/
theorem eulerIntegration64_length_witness :
    ((0 : ℚ) < thousandth ∧ quotient 0 thousandth thousandth = some 1 ∧
      ⌊(1 : ℚ)⌋ ≤ 2147483646 ∧
      ∃ res : SimulationResult,
        eulerIntegration ⟨some 10, some 10, some 10⟩ 0 thousandth thousandth = .ok res ∧
        (res.t.length : Int) = 2 ∧ (res.x.length : Int) = 2 ∧
        (res.y.length : Int) = 2 ∧ (res.z.length : Int) = 2) ∧
    ((0 : ℚ) < 30 ∧ quotient 0 30 thousandth = some 30000 ∧
      ⌊(30000 : ℚ)⌋ ≤ 2147483646 ∧
      ∃ res : SimulationResult,
        eulerIntegration ⟨some 10, some 10, some 10⟩ 0 30 thousandth = .ok res ∧
        (res.t.length : Int) = 30001 ∧ (res.x.length : Int) = 30001 ∧
        (res.y.length : Int) = 30001 ∧ (res.z.length : Int) = 30001) := by
  have hpos : (0 : ℚ) < thousandth := by norm_num [thousandth]
  have hfl : ⌊(1 : ℚ)⌋ = 1 := Int.floor_one
  have hfl' : ⌊(30000 : ℚ)⌋ = 30000 := by
    rw [Int.floor_eq_iff]
    constructor <;> norm_num
  have key := eulerIntegration64_length ⟨some 10, some 10, some 10⟩ 0 thousandth thousandth 1
    hpos hpos quotient_thousandth (by rw [hfl]; decide)
  have key' := eulerIntegration64_length ⟨some 10, some 10, some 10⟩ 0 30 thousandth 30000
    hpos (by norm_num) quotient_main (by rw [hfl']; decide)
  rw [hfl] at key
  rw [hfl'] at key'
  exact ⟨⟨hpos, quotient_thousandth, by rw [hfl]; decide, key⟩,
    ⟨by norm_num, quotient_main, by rw [hfl']; decide, key'⟩⟩

/-- C6 fails as stated: with `h = -1`, `tMin = 1`, `tMax = 0` (non-positive step, inverted
span) `eulerIntegration` does not fail; it computes and returns a two-sample trajectory. -/
theorem eulerIntegration64_no_validation_counterexample :
    ((-1 : ℚ) ≤ 0 ∨ (0 : ℚ) ≤ 1) ∧
    eulerIntegration ⟨some 10, some 10, some 0⟩ 1 0 (-1) =
      .ok ⟨[some 10, some 10], [some 10, some (-260)], [some 0, some (-100)],
        [some 1, some 0]⟩ :=
  ⟨Or.inl (by norm_num), run64_negative_step⟩

/-- C6, amended: `eulerIntegration` makes no configuration check.  For an input with
`h ≤ 0` or `tMax ≤ tMin` let `Q` be the quotient `(tMax - tMin) / h` as the code computes it
in `double` arithmetic and `c` the value of `Q` truncated toward zero, with `Q` finite and
`-2147483648 ≤ c ≤ 2147483646`.  If `c ≥ -1` the call returns a complete trajectory, of
`max 1 (c + 1)` entries in each column, seeded with `(tMin, initialState)` and with every
later sample one Euler update of its predecessor; if `c < -1` the call ends in
`std::length_error`, raised by `reserve` before any sample is stored.  No shorter trajectory
is ever returned. -/
theorem eulerIntegration64_no_validation (initialState : State) (tMin tMax h Q : ℚ)
    (hbad : h ≤ 0 ∨ tMax ≤ tMin) (hQ : quotient tMin tMax h = some Q)
    (hlo : -2147483648 ≤ truncate Q) (hhi : truncate Q ≤ 2147483646) :
    (-1 ≤ truncate Q →
      ∃ res : SimulationResult,
        eulerIntegration initialState tMin tMax h = .ok res ∧
        (res.t.length : Int) = max 1 (truncate Q + 1) ∧
        (res.x.length : Int) = max 1 (truncate Q + 1) ∧
        (res.y.length : Int) = max 1 (truncate Q + 1) ∧
        (res.z.length : Int) = max 1 (truncate Q + 1) ∧
        res.t[0]? = some (some tMin) ∧ res.x[0]? = some initialState.x ∧
        res.y[0]? = some initialState.y ∧ res.z[0]? = some initialState.z ∧
        ∀ j : Nat, j + 1 < res.t.length → EulerRel h res j) ∧
    (truncate Q < -1 →
      eulerIntegration initialState tMin tMax h = .error .lengthError) := by
  have _ := hbad
  constructor
  · intro hc
    obtain ⟨res, hok, inv⟩ := eulerIntegration64_inv initialState hQ hc
      (by unfold INT_MAX; omega)
    have hlen : ∀ k : Nat, k = (max 1 (truncate Q + 1)).toNat →
        (k : Int) = max 1 (truncate Q + 1) := by
      intro k hk
      omega
    refine ⟨res, hok, hlen _ inv.len_t, hlen _ inv.len_x, hlen _ inv.len_y,
      hlen _ inv.len_z, inv.seed_t, inv.seed_x, inv.seed_y, inv.seed_z, ?_⟩
    intro j hj
    exact inv.step j (by rw [← inv.len_t]; exact hj)
  · intro hc
    exact eulerIntegration64_throws initialState hQ (by unfold INT_MIN; omega) hc

/-- Witness of C6, one input for each branch: the negative step `h = -0.1` over the
inverted span from `0.5` down to `0` returns six samples linked by Euler updates; the
inverted span from `0` to `-5` with `h = 1` ends in `std::length_error`. -/
theorem eulerIntegration64_no_validation_witness :
    ((-tenth ≤ 0 ∨ (0 : ℚ) ≤ 1 / 2) ∧ quotient (1 / 2) 0 (-tenth) = some 5 ∧
      -1 ≤ truncate 5 ∧
      ∃ res : SimulationResult,
        eulerIntegration ⟨some 10, some 10, some 10⟩ (1 / 2) 0 (-tenth) = .ok res ∧
        (res.t.length : Int) = 6 ∧ (res.x.length : Int) = 6 ∧
        (res.y.length : Int) = 6 ∧ (res.z.length : Int) = 6 ∧
        res.t[0]? = some (some (1 / 2)) ∧ res.x[0]? = some (some 10) ∧
        res.y[0]? = some (some 10) ∧ res.z[0]? = some (some 10) ∧
        ∀ j : Nat, j + 1 < res.t.length → EulerRel (-tenth) res j) ∧
    (((1 : ℚ) ≤ 0 ∨ (-5 : ℚ) ≤ 0) ∧ quotient 0 (-5) 1 = some (-5) ∧
      truncate (-5) < -1 ∧
      eulerIntegration ⟨some 10, some 10, some 10⟩ 0 (-5) 1 = .error .lengthError) := by
  have h5 : truncate (5 : ℚ) = 5 := by simpa using truncate_intCast 5
  have hm5 : truncate (-5 : ℚ) = -5 := by simpa using truncate_intCast (-5)
  have hbadA : -tenth ≤ 0 ∨ (0 : ℚ) ≤ 1 / 2 := Or.inr (by norm_num)
  have hbadB : (1 : ℚ) ≤ 0 ∨ (-5 : ℚ) ≤ 0 := Or.inr (by norm_num)
  have keyA := (eulerIntegration64_no_validation ⟨some 10, some 10, some 10⟩ (1 / 2) 0
    (-tenth) 5 hbadA quotient_half_neg_tenth (by rw [h5]; decide) (by rw [h5]; decide)).1
    (by rw [h5]; decide)
  have keyB := (eulerIntegration64_no_validation ⟨some 10, some 10, some 10⟩ 0 (-5) 1 (-5)
    hbadB quotient_reversed (by rw [hm5]; decide) (by rw [hm5]; decide)).2
    (by rw [hm5]; decide)
  rw [h5] at keyA
  exact ⟨⟨hbadA, quotient_half_neg_tenth, by rw [h5]; decide, keyA⟩,
    ⟨hbadB, quotient_reversed, by rw [hm5]; decide, keyB⟩⟩

/-- C8 fails as stated: with `tMin = 2^53`, `tMax = 2^53 + 4`, `h = 1` (a valid
configuration of exactly representable doubles) the sum `tMin + 1*h` rounds back to `2^53`,
so samples 0 and 1 of the returned trajectory carry the same timestamp. -/
theorem eulerIntegration64_time_counterexample :
    (0 : ℚ) < 1 ∧ (9007199254740992 : ℚ) < 9007199254740996 ∧
    ∃ res : SimulationResult,
      eulerIntegration ⟨some 0, some 0, some 0⟩ 9007199254740992 9007199254740996 1 =
        .ok res ∧
      res.t[0]? = some (some 9007199254740992) ∧
      res.t[1]? = some (some 9007199254740992) ∧
      ¬ res.t.Nodup := by
  have h4 : truncate (4 : ℚ) = 4 := by simpa using truncate_intCast 4
  obtain ⟨res, hok, inv⟩ := eulerIntegration64_inv ⟨some 0, some 0, some 0⟩
    quotient_large (by rw [h4]; decide) (by rw [h4]; decide)
  rw [h4] at inv
  have hlen : res.t.length = 5 := inv.len_t
  have h1 := inv.time 1 (le_refl 1) (by decide)
  rw [timestamp_large] at h1
  refine ⟨by norm_num, by norm_num, res, hok, inv.seed_t, h1, ?_⟩
  rw [List.nodup_iff_getElem?_ne_getElem?]
  intro hnd
  exact hnd 0 1 (by decide) (by rw [hlen]; decide) (inv.seed_t.trans h1.symm)

theorem eulerIntegration64_ok_inv {initialState : State} {tMin tMax h : ℚ}
    {res : SimulationResult}
    (hok : eulerIntegration initialState tMin tMax h = .ok res) :
    ∃ m : Nat, LoopInv initialState h tMin m res := by
  unfold eulerIntegration at hok
  cases hq : quotient tMin tMax h with
  | none =>
    rw [hq] at hok
    cases hok
  | some q =>
    rw [hq] at hok
    simp only at hok
    cases hc : staticCastInt q with
    | none =>
      rw [hc] at hok
      cases hok
    | some c =>
      rw [hc] at hok
      simp only at hok
      by_cases h1 : INT_MAX < c + 1
      · rw [if_pos h1] at hok
        cases hok
      · rw [if_neg h1] at hok
        by_cases h2 : c + 1 < 0
        · rw [if_pos h2] at hok
          cases hok
        · rw [if_neg h2] at hok
          have hres := Except.ok.inj hok
          rw [← hres]
          exact ⟨_, loopInv64_eulerLoop (c + 1) _ 1 _ rfl
            (loopInv64_seed initialState h tMin)⟩

theorem timestamp_parts {tMin h a : ℚ} {j : Int}
    (hs : add (some tMin) (mul (ofInt j) (some h)) = some a) :
    ∃ p : ℚ, round64 ((j : ℚ) * h) = some p ∧ round64 (tMin + p) = some a := by
  unfold mul ofInt at hs
  simp only at hs
  cases hp : round64 ((j : ℚ) * h) with
  | none =>
    rw [hp] at hs
    cases hs
  | some p =>
    rw [hp] at hs
    exact ⟨p, rfl, hs⟩

/-- C8, amended: for valid inputs (`h > 0`, `tMax > tMin`, `tMin` a double) and every pair
of consecutive samples `i`, `i + 1` of a returned trajectory: in the `double` arithmetic of
the code finite timestamps satisfy `t[i] ≤ t[i+1]` (rounding can make them equal); in exact
arithmetic `t[i] < t[i+1]`, and the trajectory then has no duplicate timestamps. -/
theorem eulerIntegration64_time_order (tMin tMax h : ℚ) (hh : 0 < h) (ht : tMin < tMax)
    (hrepr : round64 tMin = some tMin) :
    (∀ (initialState : State) (res : SimulationResult),
      eulerIntegration initialState tMin tMax h = .ok res →
      ∀ (i : Nat) (a c : ℚ),
        res.t[i]? = some (some a) → res.t[i + 1]? = some (some c) → a ≤ c) ∧
    (∀ (initialState : Lorenz.State) (res : Lorenz.SimulationResult),
      Lorenz.eulerIntegration initialState tMin tMax h = .ok res →
      (∀ i : Nat, i + 1 < res.t.length →
        ∃ a c : ℚ, res.t[i]? = some a ∧ res.t[i + 1]? = some c ∧ a < c) ∧
      res.t.Nodup) := by
  constructor
  · intro initialState res hok i a c hi hi1
    obtain ⟨m, inv⟩ := eulerIntegration64_ok_inv hok
    have hlt : i + 1 < m := by
      rw [← inv.len_t]
      exact (List.getElem?_eq_some.mp hi1).1
    have hnext := inv.time (i + 1) (by omega) hlt
    rw [hi1] at hnext
    obtain ⟨p', hp', hc⟩ := timestamp_parts (Option.some.inj hnext).symm
    rcases Nat.eq_zero_or_pos i with h0 | hpos
    · subst h0
      have hseed := inv.seed_t
      rw [hi] at hseed
      have ha : a = tMin := Option.some.inj (Option.some.inj hseed)
      have hp0 : 0 ≤ p' :=
        round64_nonneg (mul_nonneg (by push_cast; norm_num) hh.le) hp'
      rw [ha]
      exact round64_mono (by linarith) hrepr hc
    · have hcur := inv.time i hpos (by omega)
      rw [hi] at hcur
      obtain ⟨p, hp, ha⟩ := timestamp_parts (Option.some.inj hcur).symm
      have hle : (((i : Nat) : Int) : ℚ) * h ≤ (((i + 1 : Nat) : Int) : ℚ) * h := by
        apply mul_le_mul_of_nonneg_right _ hh.le
        push_cast
        linarith
      have hpp : p ≤ p' := round64_mono hle hp hp'
      exact round64_mono (by linarith) ha hc
  · intro initialState res hok
    exact exact_time_increasing initialState tMin tMax h res hh ht hok

/-- Witness of C8: the run from the origin over `[0, 3]` with `h = 1`, in both
arithmetics. -/
theorem eulerIntegration64_time_order_witness :
    (0 : ℚ) < 1 ∧ (0 : ℚ) < 3 ∧ round64 0 = some 0 ∧
    (∃ res : SimulationResult,
      eulerIntegration ⟨some 0, some 0, some 0⟩ 0 3 1 = .ok res ∧
      ∀ (i : Nat) (a c : ℚ),
        res.t[i]? = some (some a) → res.t[i + 1]? = some (some c) → a ≤ c) ∧
    (Lorenz.eulerIntegration ⟨0, 0, 0⟩ 0 3 1 =
        .ok ⟨[0, 0, 0, 0], [0, 0, 0, 0], [0, 0, 0, 0], [0, 1, 2, 3]⟩ ∧
      (∀ i : Nat, i + 1 < [(0 : ℚ), 1, 2, 3].length →
        ∃ a c : ℚ, [(0 : ℚ), 1, 2, 3][i]? = some a ∧
          [(0 : ℚ), 1, 2, 3][i + 1]? = some c ∧ a < c) ∧
      [(0 : ℚ), 1, 2, 3].Nodup) := by
  have hh : (0 : ℚ) < 1 := by norm_num
  have ht : (0 : ℚ) < 3 := by norm_num
  have hrepr : round64 0 = some 0 :=
    round64_ofInt 0 (by norm_num) _ _ (by norm_num) (by norm_num)
  have hq : quotient 0 3 1 = some 3 :=
    quotient_eval (d := 3) (by norm_num)
      (round64_ofInt 3 (by norm_num) _ _ (by norm_num) (by norm_num))
      (round64_ofInt 3 (by norm_num) _ _ (by norm_num) (by norm_num))
  have h3 : truncate (3 : ℚ) = 3 := by simpa using truncate_intCast 3
  obtain ⟨res, hok, -⟩ := eulerIntegration64_inv ⟨some 0, some 0, some 0⟩ hq
    (by rw [h3]; decide) (by rw [h3]; decide)
  have key := eulerIntegration64_time_order 0 3 1 hh ht hrepr
  exact ⟨hh, ht, hrepr, ⟨res, hok, key.1 _ res hok⟩, run_origin, key.2 _ _ run_origin⟩

end Binary64

end Lorenz
